import Mathlib

/-!
Verification of the core of the YGM work-queue / alias-table code
(`include/ygm/container/work_queue.hpp`,
`include/ygm/container/detail/work_queue_policy.hpp`,
`include/ygm/random/alias_table.hpp`) against its specification.

The C++ sources are shallowly embedded: machine `double`s are modelled by
`ℚ`, so arithmetic identities hold exactly; the per-rank distributed loops
are modelled as pure functions with explicit message lists; unbounded
`while` loops are modelled with an explicit fuel argument that a wrapper
instantiates with a provably sufficient value.  The communicator
collectives (`ygm::sum`, `ygm::prefix_sum`, `ygm::is_same`) live outside
the embedded sources and are modelled from the specification, as noted on
their definitions.
-/

namespace YgmSpec

/-! ## Queue policies (`detail/work_queue_policy.hpp`)

Each C++ policy exposes `push` / `top` / `pop` / `empty` / `size` over its
`queue_type`.  All three `queue_type`s are modelled as Lean lists whose
head is the element returned by `top`; the policies differ only in where
`push` places a new element, exactly as `std::queue` (push at the back,
`front` at the head), `std::stack` (push at the head) and
`std::priority_queue` (ordered insertion, maximum at the head) differ. -/

structure QueuePolicy (Item : Type) where
  push : List Item → Item → List Item

namespace QueuePolicy

variable {Item : Type}

/-- `QueuePolicy::top` — the next element to be popped (head of the model list). -/
def top (_P : QueuePolicy Item) (q : List Item) : Option Item := q.head?

/-- `QueuePolicy::pop`. -/
def pop (_P : QueuePolicy Item) (q : List Item) : List Item := q.tail

/-- `QueuePolicy::empty`. -/
def emptyq (_P : QueuePolicy Item) (q : List Item) : Bool := q.isEmpty

/-- `QueuePolicy::size`. -/
def size (_P : QueuePolicy Item) (q : List Item) : Nat := q.length

/-- `queue_type{}` — a freshly value-initialised container. -/
def newq (_P : QueuePolicy Item) : List Item := []

end QueuePolicy

/-- `fifo_policy`: `std::queue` pushes at the back; `front` is the head. -/
def fifo_policy (Item : Type) : QueuePolicy Item :=
  ⟨fun q i => q ++ [i]⟩

/-- `lifo_policy`: `std::stack` pushes at the top. -/
def lifo_policy (Item : Type) : QueuePolicy Item :=
  ⟨fun q i => i :: q⟩

/-- Ordered insertion into a descending list: the new element passes every
element that is strictly greater under the comparator `comp` (the C++
`Comp`, a less-than), so the head stays a maximal element.  This models the
`std::priority_queue` heap (ties resolved one fixed way; the heap leaves
them arbitrary). -/
def pq_insert (comp : Item → Item → Bool) (x : Item) : List Item → List Item
  | [] => [x]
  | y :: ys => if comp x y then y :: pq_insert comp x ys else x :: y :: ys

/-- `priority_policy` with user comparator `comp` (a strict less-than):
`top` is a maximum. -/
def priority_policy (comp : Item → Item → Bool) : QueuePolicy Item :=
  ⟨fun q i => pq_insert comp i q⟩

/-! ## The work queue (`work_queue.hpp`)

State of one rank's `work_queue`: the policy container, the stored work
lambda (kept abstract as a value of type `W`; its behaviour is supplied
separately to the draining functions as `run`) and the
`m_callback_registered` flag. -/

structure work_queue (Item W : Type) where
  m_local_queue : List Item
  m_work_lambda : W
  m_callback_registered : Bool

variable {Item W S : Type}

/-- `register_processing_callback`: installs the pre-barrier callback with the
communicator and sets the flag.  The callback body (drain, then clear the
flag) is modelled inside `comm_barrier`. -/
def register_processing_callback (wq : work_queue Item W) : work_queue Item W :=
  { wq with m_callback_registered := true }

/-- `local_insert`: push through the policy, then register the callback if it
is not registered yet. -/
def local_insert (P : QueuePolicy Item) (wq : work_queue Item W) (it : Item) :
    work_queue Item W :=
  if wq.m_callback_registered then { wq with m_local_queue := P.push wq.m_local_queue it }
  else register_processing_callback { wq with m_local_queue := P.push wq.m_local_queue it }

/-- `local_has_work`. -/
def local_has_work (P : QueuePolicy Item) (wq : work_queue Item W) : Bool :=
  !(P.emptyq wq.m_local_queue)

/-- `local_size`. -/
def local_size (P : QueuePolicy Item) (wq : work_queue Item W) : Nat :=
  P.size wq.m_local_queue

/-- `local_clear`: replace the container by a fresh one. -/
def local_clear (P : QueuePolicy Item) (wq : work_queue Item W) : work_queue Item W :=
  { wq with m_local_queue := P.newq }

/-- The drain loop of `local_process_all`: while the container is non-empty,
`top`/`pop` one item and run the work lambda on it.  `run w it s` returns the
updated external state together with the items the lambda `local_insert`s
during its own execution (those are pushed back through the policy, as the
real `local_insert` would, the flag being already set during a drain).
Returns the final container, the final external state, and the trace of
items in processing order; `none` when `fuel` iterations did not reach an
empty container. -/
def process_go (P : QueuePolicy Item) (run : W → Item → S → S × List Item) (w : W) :
    Nat → List Item → S → Option (List Item × S × List Item)
  | 0, q, s => if P.emptyq q then some (q, s, []) else none
  | fuel + 1, q, s =>
    if P.emptyq q then some (q, s, [])
    else
      match P.top q with
      | none => none
      | some it =>
        let q1 := P.pop q
        let rs := run w it s
        let q2 := rs.2.foldl P.push q1
        match process_go P run w fuel q2 rs.1 with
        | none => none
        | some (qf, sf, tr) => some (qf, sf, it :: tr)

/-- `local_process_all` (with the processing trace exposed). -/
def local_process_all (P : QueuePolicy Item) (run : W → Item → S → S × List Item)
    (fuel : Nat) (wq : work_queue Item W) (s : S) :
    Option (work_queue Item W × S × List Item) :=
  match process_go P run wq.m_work_lambda fuel wq.m_local_queue s with
  | none => none
  | some (qf, sf, tr) => some ({ wq with m_local_queue := qf }, sf, tr)

/-- One rank's view of `comm.barrier()`: if this queue registered its
pre-barrier callback, the callback runs — `local_process_all`, then the
flag is cleared — before the barrier completes. -/
def comm_barrier (P : QueuePolicy Item) (run : W → Item → S → S × List Item)
    (fuel : Nat) (wq : work_queue Item W) (s : S) :
    Option (work_queue Item W × S) :=
  if wq.m_callback_registered then
    match local_process_all P run fuel wq s with
    | none => none
    | some (wq', s', _) => some ({ wq' with m_callback_registered := false }, s')
  else some (wq, s)

/-- `clear()`: `local_clear` followed by a barrier. -/
def wq_clear (P : QueuePolicy Item) (run : W → Item → S → S × List Item)
    (fuel : Nat) (wq : work_queue Item W) (s : S) :
    Option (work_queue Item W × S) :=
  comm_barrier P run fuel (local_clear P wq) s

/-- The move constructor `work_queue(self_type&&)`: the destination takes the
container and the work lambda, starts with the flag down, re-registers when
it received work; the source is left with a moved-from (empty) container
and a cleared flag. -/
def move_construct (P : QueuePolicy Item) (other : work_queue Item W) :
    work_queue Item W × work_queue Item W :=
  let dest0 : work_queue Item W :=
    { m_local_queue := other.m_local_queue
      m_work_lambda := other.m_work_lambda
      m_callback_registered := false }
  let dest := if local_has_work P dest0 then register_processing_callback dest0 else dest0
  (dest, { m_local_queue := P.newq
           m_work_lambda := other.m_work_lambda
           m_callback_registered := false })

/-- The move-assignment `operator=`: only `m_local_queue` is taken from the
source — `m_work_lambda` is *not* assigned, so the destination keeps its own
work lambda; flags are cleared on both sides and the destination re-registers
when it received work. -/
def move_assign (P : QueuePolicy Item) (dst other : work_queue Item W) :
    work_queue Item W × work_queue Item W :=
  let dest0 : work_queue Item W :=
    { m_local_queue := other.m_local_queue
      m_work_lambda := dst.m_work_lambda
      m_callback_registered := false }
  let dest := if local_has_work P dest0 then register_processing_callback dest0 else dest0
  (dest, { m_local_queue := P.newq
           m_work_lambda := other.m_work_lambda
           m_callback_registered := false })

/-- The reachability invariant of a `work_queue`: whenever the local container
is non-empty, the pre-barrier callback is registered. -/
def wq_inv (P : QueuePolicy Item) (wq : work_queue Item W) : Prop :=
  local_has_work P wq = true → wq.m_callback_registered = true

/-! ### Helper lemmas about the drain -/

lemma process_go_empty_final (P : QueuePolicy Item)
    (run : W → Item → S → S × List Item) (w : W) :
    ∀ (fuel : Nat) (q : List Item) (s : S) out,
      process_go P run w fuel q s = some out → P.emptyq out.1 = true := by
  intro fuel
  induction fuel with
  | zero =>
    intro q s out h
    simp only [process_go] at h
    by_cases hq : P.emptyq q
    · simp [hq] at h; subst h; simpa using hq
    · simp [hq] at h
  | succ n ih =>
    intro q s out h
    simp only [process_go] at h
    by_cases hq : P.emptyq q
    · simp [hq] at h; subst h; simpa using hq
    · simp only [hq, if_false] at h
      rcases htop : P.top q with _ | it
      · simp [htop] at h
      · simp only [htop] at h
        rcases hrec : process_go P run w n
            ((run w it s).2.foldl P.push (P.pop q)) (run w it s).1 with _ | out'
        · simp [hrec] at h
        · simp only [hrec] at h
          have := ih _ _ _ hrec
          cases out' with
          | mk qf rest =>
            simp at h
            cases h.symm
            simpa using this

lemma local_process_all_empty_final (P : QueuePolicy Item)
    (run : W → Item → S → S × List Item) (fuel : Nat) (wq : work_queue Item W)
    (s : S) (out : work_queue Item W × S × List Item)
    (h : local_process_all P run fuel wq s = some out) :
    P.emptyq out.1.m_local_queue = true := by
  unfold local_process_all at h
  rcases hgo : process_go P run wq.m_work_lambda fuel wq.m_local_queue s with _ | o
  · rw [hgo] at h; cases h
  · rw [hgo] at h
    rcases o with ⟨qf, sf, tr⟩
    simp at h
    cases h.symm
    simpa using process_go_empty_final P run wq.m_work_lambda fuel _ _ _ hgo

/-- Shared helper: a completed barrier leaves an empty container and a cleared
flag, provided the queue satisfied the reachability invariant on entry. -/
lemma comm_barrier_drained (P : QueuePolicy Item)
    (run : W → Item → S → S × List Item) (fuel : Nat) (wq : work_queue Item W)
    (s : S) (out : work_queue Item W × S)
    (hinv : wq_inv P wq) (h : comm_barrier P run fuel wq s = some out) :
    P.emptyq out.1.m_local_queue = true ∧ out.1.m_callback_registered = false := by
  unfold comm_barrier at h
  by_cases hflag : wq.m_callback_registered
  · simp only [hflag, if_true] at h
    rcases hpa : local_process_all P run fuel wq s with _ | o
    · rw [hpa] at h; cases h
    · rw [hpa] at h
      rcases o with ⟨wq', s', tr⟩
      simp at h
      cases h.symm
      exact ⟨local_process_all_empty_final P run fuel wq s _ hpa, rfl⟩
  · simp only [hflag, if_false] at h
    simp at h
    cases h.symm
    refine ⟨?_, by simpa using hflag⟩
    by_cases he : P.emptyq wq.m_local_queue
    · simpa using he
    · exfalso
      have : wq.m_callback_registered = true := hinv (by simpa [local_has_work] using he)
      exact hflag this

/-- The `work_queue(comm, work_fn)` constructor: empty container, flag down. -/
def wq_new (w : W) : work_queue Item W := ⟨[], w, false⟩

lemma local_insert_queue (P : QueuePolicy Item) (wq : work_queue Item W) (x : Item) :
    (local_insert P wq x).m_local_queue = P.push wq.m_local_queue x := by
  unfold local_insert register_processing_callback
  split <;> rfl

lemma local_insert_flag (P : QueuePolicy Item) (wq : work_queue Item W) (x : Item) :
    (local_insert P wq x).m_callback_registered = true := by
  unfold local_insert register_processing_callback
  split
  · assumption
  · rfl

lemma local_process_all_eq (P : QueuePolicy Item)
    (run : W → Item → S → S × List Item) (fuel : Nat) (wq : work_queue Item W)
    (s : S) (qf : List Item) (sf : S) (tr : List Item)
    (h : process_go P run wq.m_work_lambda fuel wq.m_local_queue s = some (qf, sf, tr)) :
    local_process_all P run fuel wq s = some ({ wq with m_local_queue := qf }, sf, tr) := by
  unfold local_process_all
  rw [h]

lemma foldl_local_insert_queue (P : QueuePolicy Item) :
    ∀ (xs : List Item) (wq : work_queue Item W),
      (xs.foldl (local_insert P) wq).m_local_queue =
        xs.foldl P.push wq.m_local_queue := by
  intro xs
  induction xs with
  | nil => intro wq; rfl
  | cons x xs ih =>
    intro wq
    simp only [List.foldl_cons, ih, local_insert_queue]

lemma foldl_fifo_push (c : List Item) (xs : List Item) :
    xs.foldl (fun q i => q ++ [i]) c = c ++ xs := by
  induction xs generalizing c with
  | nil => simp
  | cons x xs ih => simp [ih]

lemma foldl_lifo_push (c : List Item) (xs : List Item) :
    xs.foldl (fun q i => i :: q) c = xs.reverse ++ c := by
  induction xs generalizing c with
  | nil => simp
  | cons x xs ih => simp [ih]

lemma pq_insert_perm (comp : Item → Item → Bool) (x : Item) :
    ∀ l : List Item, (pq_insert comp x l).Perm (x :: l) := by
  intro l
  induction l with
  | nil => simp [pq_insert]
  | cons y ys ih =>
    unfold pq_insert
    split
    · exact ((ih.cons y).trans (List.Perm.swap x y ys))
    · exact List.Perm.refl _

lemma pq_insert_pairwise (comp : Item → Item → Bool)
    (hasym : ∀ a b, comp a b = true → comp b a = false)
    (hntrans : ∀ a b c, comp a b = false → comp b c = false → comp a c = false)
    (x : Item) :
    ∀ l : List Item, l.Pairwise (fun a b => comp a b = false) →
      (pq_insert comp x l).Pairwise (fun a b => comp a b = false) := by
  intro l
  induction l with
  | nil => intro _; simp [pq_insert]
  | cons y ys ih =>
    intro hl
    rcases List.pairwise_cons.mp hl with ⟨hy, hys⟩
    unfold pq_insert
    split
    · rename_i hcomp
      refine List.pairwise_cons.mpr ⟨?_, ih hys⟩
      intro z hz
      have hz' : z = x ∨ z ∈ ys := by
        have := (pq_insert_perm comp x ys).mem_iff.mp hz
        simpa using this
      rcases hz' with rfl | hz'
      · exact hasym _ _ hcomp
      · exact hy z hz'
    · rename_i hcomp
      simp only [Bool.not_eq_true] at hcomp
      refine List.pairwise_cons.mpr ⟨?_, hl⟩
      intro z hz
      rcases List.mem_cons.mp hz with rfl | hz'
      · exact hcomp
      · exact hntrans _ _ _ hcomp (hy z hz')

lemma foldl_pq_insert_perm (comp : Item → Item → Bool) :
    ∀ (xs acc : List Item),
      (xs.foldl (fun q i => pq_insert comp i q) acc).Perm (xs ++ acc) := by
  intro xs
  induction xs with
  | nil => intro acc; simp
  | cons x xs ih =>
    intro acc
    have h1 := ih (pq_insert comp x acc)
    have h2 : (xs ++ pq_insert comp x acc).Perm (xs ++ x :: acc) :=
      (pq_insert_perm comp x acc).append_left xs
    have h3 : (xs ++ x :: acc).Perm (x :: (xs ++ acc)) := List.perm_middle
    simpa using (h1.trans (h2.trans h3))

lemma foldl_pq_insert_pairwise (comp : Item → Item → Bool)
    (hasym : ∀ a b, comp a b = true → comp b a = false)
    (hntrans : ∀ a b c, comp a b = false → comp b c = false → comp a c = false) :
    ∀ (xs acc : List Item), acc.Pairwise (fun a b => comp a b = false) →
      (xs.foldl (fun q i => pq_insert comp i q) acc).Pairwise
        (fun a b => comp a b = false) := by
  intro xs
  induction xs with
  | nil => intro acc h; simpa using h
  | cons x xs ih =>
    intro acc h
    exact ih _ (pq_insert_pairwise comp hasym hntrans x acc h)

/-- A drain whose work function enqueues nothing pops every element in
container order and finishes with an empty container. -/
lemma process_go_no_spawn (P : QueuePolicy Item)
    (run : W → Item → S → S × List Item)
    (hrun : ∀ w it s, (run w it s).2 = []) (w : W) :
    ∀ (q : List Item) (fuel : Nat) (s : S), q.length ≤ fuel →
      ∃ sf, process_go P run w fuel q s = some ([], sf, q) := by
  intro q
  induction q with
  | nil =>
    intro fuel s _
    refine ⟨s, ?_⟩
    cases fuel <;> simp [process_go, QueuePolicy.emptyq]
  | cons it q' ih =>
    intro fuel s hf
    cases fuel with
    | zero => simp at hf
    | succ f =>
      have hf' : q'.length ≤ f := by simpa using hf
      obtain ⟨sf, hsf⟩ := ih f (run w it s).1 hf'
      refine ⟨sf, ?_⟩
      simp only [process_go, QueuePolicy.emptyq, List.isEmpty_cons, QueuePolicy.top,
        List.head?_cons, QueuePolicy.pop, List.tail_cons, hrun, List.foldl_nil,
        Bool.false_eq_true, if_false]
      rw [hsf]

/-- claim C7: after every completed barrier the local container is empty and
`callback_registered` is `false`, for every work function — in particular one
that enqueues further local items during the drain — provided the queue
satisfied the reachability invariant (non-empty container implies a
registered callback) on entry. -/
theorem work_queue_barrier_empties {Item W S : Type} (P : QueuePolicy Item)
    (run : W → Item → S → S × List Item) (fuel : Nat) (wq : work_queue Item W)
    (s : S) (out : work_queue Item W × S)
    (hinv : wq_inv P wq) (h : comm_barrier P run fuel wq s = some out) :
    P.emptyq out.1.m_local_queue = true ∧ out.1.m_callback_registered = false :=
  comm_barrier_drained P run fuel wq s out hinv h

/-- Witness for C7 at a concrete run in which the work function enqueues
`it + 1` for every processed item `it < 2`: the barrier drains the recursive
insertions too and clears the flag. -/
theorem work_queue_barrier_empties_witness :
    (wq_inv (fifo_policy ℕ) (⟨[0], (), true⟩ : work_queue ℕ Unit) ∧
      comm_barrier (fifo_policy ℕ)
        (fun (_ : Unit) (it : ℕ) (s : ℕ) => (s + 1, if it < 2 then [it + 1] else []))
        5 ⟨[0], (), true⟩ 0 = some (⟨[], (), false⟩, 3)) ∧
    QueuePolicy.emptyq (fifo_policy ℕ)
        ((⟨[], (), false⟩ : work_queue ℕ Unit), (3 : ℕ)).1.m_local_queue = true ∧
    ((⟨[], (), false⟩ : work_queue ℕ Unit), (3 : ℕ)).1.m_callback_registered = false :=
  ⟨⟨fun _ => rfl, rfl⟩,
    work_queue_barrier_empties (fifo_policy ℕ)
      (fun (_ : Unit) (it : ℕ) (s : ℕ) => (s + 1, if it < 2 then [it + 1] else []))
      5 ⟨[0], (), true⟩ 0 (⟨[], (), false⟩, 3) (fun _ => rfl) rfl⟩

/-- claim C8: `local_process_all` applies the work function in policy order:
FIFO in insertion order, LIFO in reverse insertion order, and priority
maximum-first under the user comparator (the trace is a permutation of the
insertions that never pops an element while a strictly greater one remains),
for every finite insertion sequence and any work function that enqueues
nothing. -/
theorem work_queue_drain_order {Item W S : Type} (w : W)
    (run : W → Item → S → S × List Item) (hrun : ∀ w it s, (run w it s).2 = [])
    (xs : List Item) (s : S) (comp : Item → Item → Bool)
    (hasym : ∀ a b, comp a b = true → comp b a = false)
    (hntrans : ∀ a b c, comp a b = false → comp b c = false → comp a c = false) :
    (∃ r, local_process_all (fifo_policy Item) run xs.length
        (xs.foldl (local_insert (fifo_policy Item)) (wq_new w)) s = some r ∧
        r.2.2 = xs) ∧
    (∃ r, local_process_all (lifo_policy Item) run xs.length
        (xs.foldl (local_insert (lifo_policy Item)) (wq_new w)) s = some r ∧
        r.2.2 = xs.reverse) ∧
    (∃ r, local_process_all (priority_policy comp) run xs.length
        (xs.foldl (local_insert (priority_policy comp)) (wq_new w)) s = some r ∧
        r.2.2.Perm xs ∧ r.2.2.Pairwise (fun a b => comp a b = false)) := by
  refine ⟨?_, ?_, ?_⟩
  · have hq : ((xs.foldl (local_insert (fifo_policy Item)) (wq_new w)).m_local_queue) = xs := by
      rw [foldl_local_insert_queue]
      simpa [fifo_policy, wq_new] using foldl_fifo_push [] xs
    obtain ⟨sf, hsf⟩ := process_go_no_spawn (fifo_policy Item) run hrun
      (xs.foldl (local_insert (fifo_policy Item)) (wq_new w)).m_work_lambda
      (xs.foldl (local_insert (fifo_policy Item)) (wq_new w)).m_local_queue
      xs.length s (by rw [hq])
    exact ⟨({ xs.foldl (local_insert (fifo_policy Item)) (wq_new w) with
        m_local_queue := [] }, sf,
        (xs.foldl (local_insert (fifo_policy Item)) (wq_new w)).m_local_queue),
      local_process_all_eq _ run xs.length _ s [] sf _ hsf, hq⟩
  · have hq : ((xs.foldl (local_insert (lifo_policy Item)) (wq_new w)).m_local_queue) = xs.reverse := by
      rw [foldl_local_insert_queue]
      simp [lifo_policy, wq_new, foldl_lifo_push [] xs]
    obtain ⟨sf, hsf⟩ := process_go_no_spawn (lifo_policy Item) run hrun
      (xs.foldl (local_insert (lifo_policy Item)) (wq_new w)).m_work_lambda
      (xs.foldl (local_insert (lifo_policy Item)) (wq_new w)).m_local_queue
      xs.length s (by rw [hq]; simp)
    exact ⟨({ xs.foldl (local_insert (lifo_policy Item)) (wq_new w) with
        m_local_queue := [] }, sf,
        (xs.foldl (local_insert (lifo_policy Item)) (wq_new w)).m_local_queue),
      local_process_all_eq _ run xs.length _ s [] sf _ hsf, hq⟩
  · have hq : ((xs.foldl (local_insert (priority_policy comp)) (wq_new w)).m_local_queue)
        = xs.foldl (fun q i => pq_insert comp i q) [] := by
      rw [foldl_local_insert_queue]
      rfl
    have hperm : ((xs.foldl (local_insert (priority_policy comp)) (wq_new w)).m_local_queue).Perm xs := by
      rw [hq]
      simpa using foldl_pq_insert_perm comp xs []
    have hpw : ((xs.foldl (local_insert (priority_policy comp)) (wq_new w)).m_local_queue).Pairwise
        (fun a b => comp a b = false) := by
      rw [hq]
      exact foldl_pq_insert_pairwise comp hasym hntrans xs [] (by simp)
    obtain ⟨sf, hsf⟩ := process_go_no_spawn (priority_policy comp) run hrun
      (xs.foldl (local_insert (priority_policy comp)) (wq_new w)).m_work_lambda
      (xs.foldl (local_insert (priority_policy comp)) (wq_new w)).m_local_queue
      xs.length s (le_of_eq hperm.length_eq)
    exact ⟨({ xs.foldl (local_insert (priority_policy comp)) (wq_new w) with
        m_local_queue := [] }, sf,
        (xs.foldl (local_insert (priority_policy comp)) (wq_new w)).m_local_queue),
      local_process_all_eq _ run xs.length _ s [] sf _ hsf, hperm, hpw⟩

/-- Witness for C8 on the insertion sequence `[2, 0, 1]` over `ℕ` with the
`<` comparator. -/
theorem work_queue_drain_order_witness :
    (∀ (w : Unit) (it : ℕ) (s : Unit), ((fun (_ : Unit) (_ : ℕ) (s : Unit) => (s, ([] : List ℕ))) w it s).2 = []) ∧
    (∃ r, local_process_all (fifo_policy ℕ) (fun _ _ s => (s, []))
        ([2, 0, 1] : List ℕ).length
        (([2, 0, 1] : List ℕ).foldl (local_insert (fifo_policy ℕ)) (wq_new ())) () = some r ∧
        r.2.2 = [2, 0, 1]) := by
  have h := @work_queue_drain_order ℕ Unit Unit ()
    (fun _ _ s => (s, [])) (fun _ _ _ => rfl) [2, 0, 1] ()
    (fun a b => decide (a < b))
    (by intro a b hab; simp at hab ⊢; omega)
    (by intro a b c hab hbc; simp at hab hbc ⊢; omega)
  exact ⟨fun _ _ _ => rfl, h.1⟩

/-- Counterexample for claim C9: the move-assignment operator does *not*
transfer the work function — only `m_local_queue` is move-assigned, so the
destination keeps its own `m_work_lambda` (here `2`, not the source's `1`). -/
theorem work_queue_move_assign_lambda_cex :
    (move_assign (fifo_policy ℕ) (⟨[], 2, false⟩ : work_queue ℕ ℕ)
        ⟨[5], 1, true⟩).1.m_work_lambda ≠ 1 := by
  decide

/-- claim C9 (amended): the move constructor transfers the container and the
work function; the move-assignment operator transfers only the container and
the destination keeps its own work function; both re-arm the destination's
callback exactly when the transferred container is non-empty, and leave the
source with an empty container and `callback_registered == false`. -/
theorem work_queue_move_semantics {Item W : Type} (P : QueuePolicy Item)
    (dst other : work_queue Item W) :
    (move_construct P other).1.m_local_queue = other.m_local_queue ∧
    (move_construct P other).1.m_work_lambda = other.m_work_lambda ∧
    (move_construct P other).1.m_callback_registered = local_has_work P other ∧
    (move_construct P other).2.m_local_queue = P.newq ∧
    (move_construct P other).2.m_callback_registered = false ∧
    (move_assign P dst other).1.m_local_queue = other.m_local_queue ∧
    (move_assign P dst other).1.m_work_lambda = dst.m_work_lambda ∧
    (move_assign P dst other).1.m_callback_registered = local_has_work P other ∧
    (move_assign P dst other).2.m_local_queue = P.newq ∧
    (move_assign P dst other).2.m_callback_registered = false := by
  unfold move_construct move_assign register_processing_callback local_has_work
  by_cases h : P.emptyq other.m_local_queue <;> simp [h]

/-- claim C10: every public operation preserves the invariant that a
non-empty container implies a registered callback, and from any state
satisfying it the destructor's barrier leaves `local_size() == 0`, so the
destructor's release assertion cannot fire. -/
theorem work_queue_inv_preserved {Item W S : Type} (P : QueuePolicy Item)
    (run : W → Item → S → S × List Item) :
    (∀ (wq : work_queue Item W) it, wq_inv P (local_insert P wq it)) ∧
    (∀ (fuel : Nat) (wq : work_queue Item W) (s : S) out,
        local_process_all P run fuel wq s = some out → wq_inv P out.1) ∧
    (∀ wq : work_queue Item W, wq_inv P (local_clear P wq)) ∧
    (∀ (fuel : Nat) (wq : work_queue Item W) (s : S) out,
        wq_clear P run fuel wq s = some out →
        wq_inv P out.1 ∧ local_size P out.1 = 0) ∧
    (∀ other : work_queue Item W,
        wq_inv P (move_construct P other).1 ∧ wq_inv P (move_construct P other).2) ∧
    (∀ dst other : work_queue Item W,
        wq_inv P (move_assign P dst other).1 ∧ wq_inv P (move_assign P dst other).2) ∧
    (∀ (fuel : Nat) (wq : work_queue Item W) (s : S) out, wq_inv P wq →
        comm_barrier P run fuel wq s = some out → local_size P out.1 = 0) := by
  have hempty_size : ∀ q : List Item, P.emptyq q = true → P.size q = 0 := by
    intro q hq
    have : q = [] := by simpa [QueuePolicy.emptyq] using hq
    simp [this, QueuePolicy.size]
  refine ⟨?_, ?_, ?_, ?_, ?_, ?_, ?_⟩
  · intro wq it _
    exact local_insert_flag P wq it
  · intro fuel wq s out hout
    intro hw
    exfalso
    have he := local_process_all_empty_final P run fuel wq s out hout
    simp [local_has_work, he] at hw
  · intro wq hw
    exfalso
    simp [local_has_work, local_clear, QueuePolicy.emptyq, QueuePolicy.newq] at hw
  · intro fuel wq s out hout
    have hinv : wq_inv P (local_clear P wq) := by
      intro hw
      exfalso
      simp [local_has_work, local_clear, QueuePolicy.emptyq, QueuePolicy.newq] at hw
    have := comm_barrier_drained P run fuel (local_clear P wq) s out hinv hout
    refine ⟨?_, ?_⟩
    · intro hw
      exfalso
      simp [local_has_work, this.1] at hw
    · exact hempty_size _ this.1
  · intro other
    constructor
    · intro hw
      have hq : (move_construct P other).1.m_local_queue = other.m_local_queue ∧
          (move_construct P other).1.m_callback_registered = local_has_work P other := by
        unfold move_construct register_processing_callback local_has_work
        by_cases h : P.emptyq other.m_local_queue <;> simp [h]
      rw [hq.2]
      simpa [local_has_work, hq.1] using hw
    · intro hw
      exfalso
      simp [move_construct, local_has_work, QueuePolicy.emptyq, QueuePolicy.newq] at hw
  · intro dst other
    constructor
    · intro hw
      have hq : (move_assign P dst other).1.m_local_queue = other.m_local_queue ∧
          (move_assign P dst other).1.m_callback_registered = local_has_work P other := by
        unfold move_assign register_processing_callback local_has_work
        by_cases h : P.emptyq other.m_local_queue <;> simp [h]
      rw [hq.2]
      simpa [local_has_work, hq.1] using hw
    · intro hw
      exfalso
      simp [move_assign, local_has_work, QueuePolicy.emptyq, QueuePolicy.newq] at hw
  · intro fuel wq s out hinv hout
    exact hempty_size _ (comm_barrier_drained P run fuel wq s out hinv hout).1

/-- Witness for C10: the destructor's barrier conjunct at a concrete drain. -/
theorem work_queue_inv_preserved_witness :
    local_size (fifo_policy ℕ) ((⟨[], (), false⟩ : work_queue ℕ Unit), 3).1 = 0 :=
  (work_queue_inv_preserved (fifo_policy ℕ)
      (fun (_ : Unit) (it : ℕ) (s : ℕ) => (s + it, []))).2.2.2.2.2.2
    3 ⟨[1, 2], (), true⟩ 0 (⟨[], (), false⟩, 3) (fun _ => rfl) rfl

/-! ## The alias table (`random/alias_table.hpp`)

`double` weights are modelled by `ℚ`, so every arithmetic identity below is
the exact-arithmetic reading of the floating-point code. -/

/-- `alias_table::item`: an `(id, weight)` pair. -/
structure WItem (α : Type) where
  id : α
  weight : ℚ
deriving DecidableEq

/-- `alias_table::table_item`: a bucket `(p, a, b)`; `p / m_avg_weight` is the
probability that `a` is selected. -/
structure table_item (α : Type) where
  p : ℚ
  a : α
  b : α
deriving DecidableEq

variable {α : Type}

/-- Total weight of a list of items (the `local_weight` accumulations). -/
def itemsWeight (l : List (WItem α)) : ℚ := (l.map WItem.weight).sum

/-- The selection performed by `async_sample`'s `sample_wrapper` on a drawn
bucket `(p, a, b)`, with `f` the value the bucket-weight distribution over
`[0, m_avg_weight)` would produce: `s = a`, and only when
`p < m_avg_weight` is `f` drawn and `s` replaced by `b` if `f > p`. -/
def async_sample_select (avg p f : ℚ) (a b : α) : α :=
  if p < avg then (if f > p then b else a) else a

/-- claim C5: if `p < avg_weight` the bucket resolves to `b` exactly when the
uniform draw `f` exceeds `p` and to `a` otherwise; if `p = avg_weight` (a
boundary bucket from the drain phase) no draw influences the outcome: `a` is
always selected and `b` (when distinct from `a`) never. -/
theorem async_sample_select_spec (avg p f : ℚ) (a b : α) :
    (p < avg → async_sample_select avg p f a b = if f > p then b else a) ∧
    (p = avg → async_sample_select avg p f a b = a) ∧
    (p = avg → a ≠ b → async_sample_select avg p f a b ≠ b) := by
  refine ⟨?_, ?_, ?_⟩
  · intro h
    simp [async_sample_select, h]
  · intro h
    subst h
    simp [async_sample_select]
  · intro h hab
    subst h
    simp [async_sample_select, lt_irrefl]
    exact hab

/-- Witness for C5 at the bucket `(p, a, b) = (1, 0, 1)` with
`avg_weight = 2` and draw `f = 3/2 > p`, which selects `b = 1`. -/
theorem async_sample_select_spec_witness :
    (1 : ℚ) < 2 ∧
      async_sample_select 2 1 (3 / 2) (0 : ℕ) 1 = if (3 / 2 : ℚ) > 1 then 1 else 0 :=
  ⟨by norm_num, (async_sample_select_spec 2 1 (3 / 2) (0 : ℕ) 1).1 (by norm_num)⟩

/-- The Vose `while` loop of `build_local_alias_table`, followed by the two
flush loops.  The backs of the C++ `light_items` / `heavy_items` vectors are
the heads of the model lists.  Each main-loop iteration emits the bucket
`(l.weight, l.id, h.id)`, updates the heavy weight to `(h.w + l.w) - avg` in
place, pops the light item, and demotes the heavy item to the light stack
when its new weight dropped below `avg`.  When either stack is exhausted the
remaining items are flushed one bucket each with `p = avg` and a
default-constructed `b`.  `fuel` bounds the number of main-loop iterations;
`none` means the bound was hit with both stacks non-empty. -/
def vose_loop [Inhabited α] (avg : ℚ) :
    ℕ → List (WItem α) → List (WItem α) → List (table_item α) →
    Option (List (table_item α))
  | _, [], heavies, acc =>
    some (acc ++ heavies.map (fun h => ⟨avg, h.id, default⟩))
  | _, l :: ls, [], acc =>
    some (acc ++ (l :: ls).map (fun l' => ⟨avg, l'.id, default⟩))
  | 0, _ :: _, _ :: _, _ => none
  | fuel + 1, l :: ls, h :: hs, acc =>
    let acc' := acc ++ [⟨l.weight, l.id, h.id⟩]
    let hw := (h.weight + l.weight) - avg
    if hw < avg then vose_loop avg fuel (⟨h.id, hw⟩ :: ls) hs acc'
    else vose_loop avg fuel ls (⟨h.id, hw⟩ :: hs) acc'

/-- `build_local_alias_table`: partition the post-balance items into light
(`w < avg`) and heavy (`w ≥ avg`) in input order, then run Vose's loop.  The
wrapper passes exactly enough fuel for the loop (each iteration shrinks
`|light| + |heavy|` by one). -/
def build_local_alias_table [Inhabited α] (items : List (WItem α)) :
    Option (List (table_item α)) :=
  let avg := itemsWeight items / (items.length : ℚ)
  let lights := (items.filter (fun it => decide (it.weight < avg))).reverse
  let heavies := (items.filter (fun it => !decide (it.weight < avg))).reverse
  vose_loop avg (lights.length + heavies.length) lights heavies []

lemma vose_loop_length [Inhabited α] (avg : ℚ) :
    ∀ (fuel : ℕ) (lights heavies : List (WItem α)) (acc : List (table_item α)),
      lights.length + heavies.length ≤ fuel →
      ∃ tbl, vose_loop avg fuel lights heavies acc = some tbl ∧
        tbl.length = acc.length + lights.length + heavies.length := by
  intro fuel
  induction fuel with
  | zero =>
    intro lights heavies acc hle
    match lights, heavies with
    | [], heavies =>
      refine ⟨_, rfl, ?_⟩
      simp
    | l :: ls, [] =>
      refine ⟨_, rfl, ?_⟩
      simp
    | l :: ls, h :: hs => simp at hle
  | succ n ih =>
    intro lights heavies acc hle
    match lights, heavies with
    | [], heavies =>
      refine ⟨_, rfl, ?_⟩
      simp
    | l :: ls, [] =>
      refine ⟨_, rfl, ?_⟩
      simp
    | l :: ls, h :: hs =>
      simp only [vose_loop]
      split
      · obtain ⟨tbl, h1, h2⟩ := ih (⟨h.id, (h.weight + l.weight) - avg⟩ :: ls) hs
          (acc ++ [⟨l.weight, l.id, h.id⟩]) (by simp at hle ⊢; omega)
        refine ⟨tbl, h1, ?_⟩
        simp at h2 ⊢
        omega
      · obtain ⟨tbl, h1, h2⟩ := ih ls (⟨h.id, (h.weight + l.weight) - avg⟩ :: hs)
          (acc ++ [⟨l.weight, l.id, h.id⟩]) (by simp at hle ⊢; omega)
        refine ⟨tbl, h1, ?_⟩
        simp at h2 ⊢
        omega

lemma filter_length_split {β : Type} (p : β → Bool) :
    ∀ l : List β, (l.filter p).length + (l.filter (fun a => !(p a))).length = l.length := by
  intro l
  induction l with
  | nil => simp
  | cons a l ih =>
    rcases h : p a with _ | _ <;> simp [List.filter_cons, h] <;> omega

/-- claim C6: the Vose construction always completes and produces exactly one
bucket per post-balance local item, whatever the heavy/light partition turns
out to be. -/
theorem build_local_alias_table_length [Inhabited α] (items : List (WItem α)) :
    ∃ tbl, build_local_alias_table items = some tbl ∧ tbl.length = items.length := by
  set avg := itemsWeight items / (items.length : ℚ) with havg
  set lights := (items.filter (fun it => decide (it.weight < avg))).reverse with hl
  set heavies := (items.filter (fun it => !decide (it.weight < avg))).reverse with hh
  have hbuild : build_local_alias_table items =
      vose_loop avg (lights.length + heavies.length) lights heavies [] := rfl
  obtain ⟨tbl, h1, h2⟩ :=
    vose_loop_length avg (lights.length + heavies.length) lights heavies [] le_rfl
  refine ⟨tbl, by rw [hbuild]; exact h1, ?_⟩
  rw [h2]
  have := filter_length_split (fun it : WItem α => decide (it.weight < avg)) items
  simp only [hl, hh, List.length_reverse, List.length_nil]
  omega

/-! ## The weight balancer (`balance_weight` / `is_balanced`)

The communicator collectives used by `balance_weight` are outside the
embedded sources; they are modelled from the specification (see the doc
comment of each).  Ranks are modelled by list positions: the input is the
list of per-rank item lists, and an async send to `dest_rank` is recorded
as a `(dest, batch)` pair. -/

/-- Modelled from the spec: the `ygm::sum` collective — the total of a
per-rank value over all ranks. -/
def ygm_sum (vals : List ℚ) : ℚ := vals.sum

/-- Modelled from the spec: the prefix-sum collective feeding `dest_rank` and
`curr_weight`.  §4.3 derives the initial destination from `P_{r-1}`, the
total input weight of ranks `0..r-1`, and the code comments call
`curr_weight` the "weight being contributed by *other* processors", so the
value handed to rank `r` is the exclusive prefix sum `Σ_{s<r} L_s`.  The
inclusive reading that the spec's text also names appears as
`ygm_prfx_sum_incl` below for comparison. -/
def ygm_prfx_sum_excl (vals : List ℚ) (r : ℕ) : ℚ := (vals.take r).sum

/-- Modelled from the spec: the inclusive prefix sum `P_r = Σ_{s≤r} L_s`,
exactly as the sentence "Compute `P_r = Σ_{s≤r} L_s` (inclusive prefix
sum)" words the collective. -/
def ygm_prfx_sum_incl (vals : List ℚ) (r : ℕ) : ℚ := (vals.take (r + 1)).sum

/-- Modelled from the spec: the `ygm::is_same` collective — every rank's
value equal to every other's under the supplied equality predicate. -/
def ygm_is_same (vals : List ℚ) (eqf : ℚ → ℚ → Bool) : Bool :=
  match vals with
  | [] => true
  | v :: rest => rest.all (eqf v)

/-- `int dest_rank = prfx_sum_weight / target_weight;` — double division then
conversion to `int`; on the non-negative values arising here the C++
truncation toward zero is the floor. -/
def initial_dest_rank (prfx T : ℚ) : ℤ := ⌊prfx / T⌋

/-- `std::fmod(x, y)` on the non-negative arguments arising here. -/
def fmodQ (x y : ℚ) : ℚ := x - y * ⌊x / y⌋

/-- The item loop of `balance_weight` on one rank.  State: the unprocessed
suffix of `m_local_items` (to whose end the oversized-remainder push_back
appends), `curr_weight`, `dest_rank`, `items_to_send`, and the `async`
batches sent so far (each recorded as `(dest_rank, items)`, and only sent
under the `dest_rank < m_comm.size()` guard).  Returns the final
`(sends, items_to_send, curr_weight, dest_rank)`; `none` when `fuel`
iterations were not enough. -/
def balanceLoop (n : ℕ) (T : ℚ) :
    ℕ → List (WItem α) → ℚ → ℤ → List (WItem α) → List (ℤ × List (WItem α)) →
    Option (List (ℤ × List (WItem α)) × List (WItem α) × ℚ × ℤ)
  | _, [], curr, dest, toSend, sends => some (sends, toSend, curr, dest)
  | 0, _ :: _, _, _, _, _ => none
  | fuel + 1, itm :: rest, curr, dest, toSend, sends =>
    if T ≤ curr + itm.weight then
      let remaining := curr + itm.weight - T
      let batch := toSend ++ [⟨itm.id, itm.weight - remaining⟩]
      let sends' := if dest < (n : ℤ) then sends ++ [(dest, batch)] else sends
      if T ≤ remaining then
        balanceLoop n T fuel (rest ++ [⟨itm.id, remaining⟩]) 0 (dest + 1) [] sends'
      else
        balanceLoop n T fuel rest remaining (dest + 1)
          (if remaining ≠ 0 then [⟨itm.id, remaining⟩] else []) sends'
    else
      balanceLoop n T fuel rest (curr + itm.weight) dest (toSend ++ [itm]) sends

/-- The post-loop flush: the leftover `items_to_send` go to the current
`dest_rank` when non-empty and the guard `dest_rank < m_comm.size()`
holds; otherwise they are sent nowhere. -/
def balanceFlush (n : ℕ)
    (st : List (ℤ × List (WItem α)) × List (WItem α) × ℚ × ℤ) :
    List (ℤ × List (WItem α)) :=
  if 0 < st.2.1.length ∧ st.2.2.2 < (n : ℤ) then st.1 ++ [(st.2.2.2, st.2.1)] else st.1

/-- Sufficient fuel for `balanceLoop`: each iteration either consumes a list
entry or crosses a `target_weight` boundary, and there are at most
`⌊(curr + Σ weights) / T⌋` boundaries left. -/
def loop_fuel (T curr : ℚ) (ws : List (WItem α)) : ℕ :=
  ws.length + 2 * (⌊(curr + itemsWeight ws) / T⌋).toNat + 1

/-- One rank's `balance_weight` sending phase: initial `dest_rank` and
`curr_weight` from the prefix weight `E`, then the item loop and the flush.
Returns the list of async batches this rank issues. -/
def balance_weight_rank (n : ℕ) (T E : ℚ) (items : List (WItem α)) :
    Option (List (ℤ × List (WItem α))) :=
  (balanceLoop n T (loop_fuel T (fmodQ E T) items) items (fmodQ E T)
      (initial_dest_rank E T) [] []).map (balanceFlush n)

/-- All ranks' sends, walking the rank list while accumulating the exclusive
prefix weight `E` (rank `r` runs with `E = Σ_{s<r} L_s`, the value
`ygm_prfx_sum_excl` hands it). -/
def rank_sends_all (n : ℕ) (T : ℚ) :
    List (List (WItem α)) → ℚ → Option (List (ℤ × List (WItem α)))
  | [], _ => some []
  | items :: rest, E =>
    match balance_weight_rank n T E items,
        rank_sends_all n T rest (E + itemsWeight items) with
    | some s, some srest => some (s ++ srest)
    | _, _ => none

/-- The items a given rank `k` receives: the concatenation of every batch
async-sent to `k` (the receiver appends them to `new_local_items`). -/
def receivedItems (sends : List (ℤ × List (WItem α))) (k : ℤ) : List (WItem α) :=
  ((sends.filter (fun p => decide (p.1 = k))).map Prod.snd).flatten

/-- The per-rank input totals (`local_weight` on each rank). -/
def local_weights (inputs : List (List (WItem α))) : List ℚ := inputs.map itemsWeight

/-- The full collective `balance_weight`: every rank computes its share of
the global weight targets, sends its items, and after the barrier each rank
`k`'s `m_local_items` becomes the batch concatenation it received. -/
def balance_weight (inputs : List (List (WItem α))) :
    Option (List (List (WItem α))) :=
  (rank_sends_all inputs.length
      (ygm_sum (local_weights inputs) / (inputs.length : ℚ)) inputs 0).map
    (fun ss => (List.range inputs.length).map (fun k : ℕ => receivedItems ss (k : ℤ)))

/-- Fragment weight carried by the id `x` in a list of items. -/
def idWeight [DecidableEq α] (l : List (WItem α)) (x : α) : ℚ :=
  itemsWeight (l.filter (fun it => decide (it.id = x)))

/-- Every item any batch of `sends` carries. -/
def allSentItems (sends : List (ℤ × List (WItem α))) : List (WItem α) :=
  (sends.map Prod.snd).flatten

/-- Weight actually delivered to rank `k`. -/
def sentTo (sends : List (ℤ × List (WItem α))) (k : ℤ) : ℚ :=
  itemsWeight (receivedItems sends k)

/-! ### Bookkeeping lemmas for weights, received batches and id weights -/

lemma itemsWeight_nil : itemsWeight ([] : List (WItem α)) = 0 := rfl

lemma itemsWeight_cons (it : WItem α) (l : List (WItem α)) :
    itemsWeight (it :: l) = it.weight + itemsWeight l := by
  simp [itemsWeight]

lemma itemsWeight_append (l1 l2 : List (WItem α)) :
    itemsWeight (l1 ++ l2) = itemsWeight l1 + itemsWeight l2 := by
  simp [itemsWeight]

lemma itemsWeight_nonneg {l : List (WItem α)} (h : ∀ it ∈ l, 0 ≤ it.weight) :
    0 ≤ itemsWeight l := by
  induction l with
  | nil => simp [itemsWeight_nil]
  | cons it l ih =>
    rw [itemsWeight_cons]
    have h1 := h it (by simp)
    have h2 := ih (fun x hx => h x (by simp [hx]))
    linarith

lemma itemsWeight_eq_zero {l : List (WItem α)} (h : ∀ it ∈ l, 0 ≤ it.weight)
    (hz : itemsWeight l = 0) : ∀ it ∈ l, it.weight = 0 := by
  induction l with
  | nil => simp
  | cons it l ih =>
    rw [itemsWeight_cons] at hz
    have h1 := h it (by simp)
    have h2 := @itemsWeight_nonneg α l (fun x hx => h x (by simp [hx]))
    intro x hx
    rcases List.mem_cons.mp hx with rfl | hx'
    · linarith
    · exact ih (fun y hy => h y (by simp [hy])) (by linarith) x hx'

lemma receivedItems_nil (k : ℤ) :
    receivedItems ([] : List (ℤ × List (WItem α))) k = [] := rfl

lemma receivedItems_append (s1 s2 : List (ℤ × List (WItem α))) (k : ℤ) :
    receivedItems (s1 ++ s2) k = receivedItems s1 k ++ receivedItems s2 k := by
  simp [receivedItems, List.filter_append]

lemma receivedItems_single (d : ℤ) (b : List (WItem α)) (k : ℤ) :
    receivedItems [(d, b)] k = if d = k then b else [] := by
  by_cases h : d = k <;> simp [receivedItems, h]

lemma sentTo_nil (k : ℤ) : sentTo ([] : List (ℤ × List (WItem α))) k = 0 := rfl

lemma sentTo_append (s1 s2 : List (ℤ × List (WItem α))) (k : ℤ) :
    sentTo (s1 ++ s2) k = sentTo s1 k + sentTo s2 k := by
  simp [sentTo, receivedItems_append, itemsWeight_append]

lemma sentTo_snoc (s : List (ℤ × List (WItem α))) (d : ℤ) (b : List (WItem α)) (k : ℤ) :
    sentTo (s ++ [(d, b)]) k = sentTo s k + (if d = k then itemsWeight b else 0) := by
  rw [sentTo_append]
  congr 1
  by_cases h : d = k <;>
    simp [sentTo, receivedItems_single, h, itemsWeight_nil]

lemma idWeight_nil [DecidableEq α] (x : α) :
    idWeight ([] : List (WItem α)) x = 0 := rfl

lemma idWeight_cons [DecidableEq α] (it : WItem α) (l : List (WItem α)) (x : α) :
    idWeight (it :: l) x = (if it.id = x then it.weight else 0) + idWeight l x := by
  by_cases h : it.id = x <;> simp [idWeight, List.filter_cons, h, itemsWeight_cons]

lemma idWeight_append [DecidableEq α] (l1 l2 : List (WItem α)) (x : α) :
    idWeight (l1 ++ l2) x = idWeight l1 x + idWeight l2 x := by
  simp [idWeight, List.filter_append, itemsWeight_append]

lemma idWeight_single [DecidableEq α] (i : α) (w : ℚ) (x : α) :
    idWeight [⟨i, w⟩] x = if i = x then w else 0 := by
  rw [show ([⟨i, w⟩] : List (WItem α)) = ⟨i, w⟩ :: [] from rfl, idWeight_cons]
  simp [idWeight_nil]

lemma idWeight_zero_of [DecidableEq α] {l : List (WItem α)}
    (h : ∀ it ∈ l, it.weight = 0) (x : α) : idWeight l x = 0 := by
  induction l with
  | nil => simp [idWeight_nil]
  | cons it l ih =>
    rw [idWeight_cons, h it (by simp), ih (fun y hy => h y (by simp [hy]))]
    simp

lemma allSentItems_nil : allSentItems ([] : List (ℤ × List (WItem α))) = [] := rfl

lemma allSentItems_append (s1 s2 : List (ℤ × List (WItem α))) :
    allSentItems (s1 ++ s2) = allSentItems s1 ++ allSentItems s2 := by
  simp [allSentItems]

lemma allSentItems_snoc (s : List (ℤ × List (WItem α))) (d : ℤ) (b : List (WItem α)) :
    allSentItems (s ++ [(d, b)]) = allSentItems s ++ b := by
  simp [allSentItems]

/-! ### `fmod` / floor facts for the initial per-rank state -/

lemma fmodQ_eq_fract_mul {E T : ℚ} (hT : 0 < T) :
    fmodQ E T = T * Int.fract (E / T) := by
  unfold fmodQ
  rw [Int.fract, mul_sub]
  congr 1
  field_simp

lemma fmodQ_nonneg {E T : ℚ} (hT : 0 < T) : 0 ≤ fmodQ E T := by
  rw [fmodQ_eq_fract_mul hT]
  exact mul_nonneg hT.le (Int.fract_nonneg _)

lemma fmodQ_lt {E T : ℚ} (hT : 0 < T) : fmodQ E T < T := by
  rw [fmodQ_eq_fract_mul hT]
  calc T * Int.fract (E / T) < T * 1 := by
        exact mul_lt_mul_of_pos_left (Int.fract_lt_one _) hT
    _ = T := mul_one T

lemma fmodQ_add_floor (E T : ℚ) :
    T * ((initial_dest_rank E T : ℤ) : ℚ) + fmodQ E T = E := by
  unfold fmodQ initial_dest_rank
  ring

lemma initial_dest_nonneg {E T : ℚ} (hT : 0 < T) (hE : 0 ≤ E) :
    0 ≤ initial_dest_rank E T :=
  Int.floor_nonneg.mpr (div_nonneg hE hT.le)

/-! ### The interval view of the destination computation

From state `(curr, dest)` the still-unprocessed stream of total weight `R`
occupies the relative interval `[0, R)`, and destination rank `k` receives
its overlap with the window `[(k-dest)·T - curr, (k-dest+1)·T - curr)`. -/

def ovl (T curr : ℚ) (dest k : ℤ) (R : ℚ) : ℚ :=
  max 0 (min R ((((k : ℚ) - (dest : ℚ)) + 1) * T - curr) -
    max 0 (((k : ℚ) - (dest : ℚ)) * T - curr))

lemma ovl_zero (T curr : ℚ) (dest k : ℤ) : ovl T curr dest k 0 = 0 := by
  unfold ovl
  have h1 : min 0 ((((k : ℚ) - (dest : ℚ)) + 1) * T - curr) ≤ 0 := min_le_left _ _
  have h2 : (0 : ℚ) ≤ max 0 (((k : ℚ) - (dest : ℚ)) * T - curr) := le_max_left _ _
  exact max_eq_left (by linarith)

set_option maxHeartbeats 2000000 in
/-- Absorbing an item without filling `dest_rank` moves its weight from the
stream into `curr_weight` (and `items_to_send`) without changing what any
destination will receive. -/
lemma ovl_step_keep (T curr w R' : ℚ) (dest k : ℤ) (hcurr : 0 ≤ curr)
    (hw : 0 ≤ w) (hR : 0 ≤ R') (hlt : curr + w < T) :
    ovl T curr dest k (w + R') =
      (if dest = k then w else 0) + ovl T (curr + w) dest k R' := by
  have hT : 0 < T := by linarith
  unfold ovl
  rcases lt_trichotomy k dest with hk | hk | hk
  · have hk1 : (k : ℚ) + 1 ≤ (dest : ℚ) := by exact_mod_cast hk
    rw [if_neg (ne_of_gt hk)]
    have hp1 : (((k : ℚ) - (dest : ℚ)) + 1) * T ≤ 0 * T :=
      mul_le_mul_of_nonneg_right (by linarith) hT.le
    simp only [min_def, max_def]
    split_ifs <;> linarith
  · subst hk
    rw [if_pos rfl]
    simp only [min_def, max_def]
    split_ifs <;> linarith
  · have hk1 : (dest : ℚ) + 1 ≤ (k : ℚ) := by exact_mod_cast hk
    rw [if_neg (ne_of_lt hk)]
    have hp1 : 1 * T ≤ ((k : ℚ) - (dest : ℚ)) * T :=
      mul_le_mul_of_nonneg_right (by linarith) hT.le
    simp only [min_def, max_def]
    split_ifs <;> linarith

set_option maxHeartbeats 2000000 in
/-- Filling `dest_rank` (small leftover): the batch `T - curr` goes to `dest`,
the leftover `curr + w - T` becomes the new `curr_weight` against
`dest + 1`. -/
lemma ovl_step_split_lo (T curr w R' : ℚ) (dest k : ℤ) (hcurr : 0 ≤ curr)
    (hw : 0 ≤ w) (hR : 0 ≤ R') (hcT : curr < T) (hsp : T ≤ curr + w)
    (hrem : curr + w - T < T) :
    ovl T curr dest k (w + R') =
      (if dest = k then T - curr else 0) +
        ((if dest + 1 = k then curr + w - T else 0) +
          ovl T (curr + w - T) (dest + 1) k R') := by
  have hT : 0 < T := by linarith
  unfold ovl
  push_cast
  rcases lt_trichotomy k dest with hk | hk | hk
  · have hk1 : (k : ℚ) + 1 ≤ (dest : ℚ) := by exact_mod_cast hk
    rw [if_neg (ne_of_gt hk), if_neg (by omega : dest + 1 ≠ k)]
    have hp1 : (((k : ℚ) - (dest : ℚ)) + 1) * T ≤ 0 * T :=
      mul_le_mul_of_nonneg_right (by linarith) hT.le
    have hp2 : ((k : ℚ) - (dest : ℚ)) * T ≤ (-1) * T :=
      mul_le_mul_of_nonneg_right (by linarith) hT.le
    simp only [min_def, max_def]
    split_ifs <;> linarith
  · subst hk
    rw [if_pos rfl, if_neg (by omega : k + 1 ≠ k)]
    simp only [min_def, max_def]
    split_ifs <;> linarith
  · rcases eq_or_lt_of_le (Int.add_one_le_iff.mpr hk) with hk2 | hk2
    · subst hk2
      rw [if_neg (by omega : dest ≠ dest + 1), if_pos rfl]
      push_cast
      simp only [min_def, max_def]
      split_ifs <;> linarith
    · have hk2' : dest + 2 ≤ k := by omega
      have hk1 : (dest : ℚ) + 2 ≤ (k : ℚ) := by exact_mod_cast hk2'
      rw [if_neg (by omega : dest ≠ k), if_neg (by omega : dest + 1 ≠ k)]
      have hp1 : 2 * T ≤ ((k : ℚ) - (dest : ℚ)) * T :=
        mul_le_mul_of_nonneg_right (by linarith) hT.le
      simp only [min_def, max_def]
      split_ifs <;> linarith

set_option maxHeartbeats 2000000 in
/-- Filling `dest_rank` (oversized leftover): the batch `T - curr` goes to
`dest`, and the leftover `curr + w - T ≥ T` is pushed back onto the stream
against `dest + 1` with `curr_weight = 0`. -/
lemma ovl_step_split_hi (T curr w R' : ℚ) (dest k : ℤ) (hcurr : 0 ≤ curr)
    (hw : 0 ≤ w) (hR : 0 ≤ R') (hcT : curr < T) (hT : 0 < T)
    (hrem2 : T ≤ curr + w - T) :
    ovl T curr dest k (w + R') =
      (if dest = k then T - curr else 0) +
        ovl T 0 (dest + 1) k (R' + (curr + w - T)) := by
  unfold ovl
  push_cast
  rcases lt_trichotomy k dest with hk | hk | hk
  · have hk1 : (k : ℚ) + 1 ≤ (dest : ℚ) := by exact_mod_cast hk
    rw [if_neg (ne_of_gt hk)]
    have hp1 : (((k : ℚ) - (dest : ℚ)) + 1) * T ≤ 0 * T :=
      mul_le_mul_of_nonneg_right (by linarith) hT.le
    have hp2 : ((k : ℚ) - (dest : ℚ)) * T ≤ (-1) * T :=
      mul_le_mul_of_nonneg_right (by linarith) hT.le
    simp only [min_def, max_def]
    split_ifs <;> linarith
  · subst hk
    rw [if_pos rfl]
    simp only [min_def, max_def]
    split_ifs <;> linarith
  · rcases eq_or_lt_of_le (Int.add_one_le_iff.mpr hk) with hk2 | hk2
    · subst hk2
      rw [if_neg (by omega : dest ≠ dest + 1)]
      push_cast
      simp only [min_def, max_def]
      split_ifs <;> linarith
    · have hk2' : dest + 2 ≤ k := by omega
      have hk1 : (dest : ℚ) + 2 ≤ (k : ℚ) := by exact_mod_cast hk2'
      rw [if_neg (by omega : dest ≠ k)]
      have hp1 : 2 * T ≤ ((k : ℚ) - (dest : ℚ)) * T :=
        mul_le_mul_of_nonneg_right (by linarith) hT.le
      simp only [min_def, max_def]
      split_ifs <;> linarith

set_option maxHeartbeats 2000000 in
/-- Rewriting the relative overlap as a difference of clamps in absolute
coordinates. -/
lemma clamp_overlap (a R c d : ℚ) (hR : 0 ≤ R) (hcd : c ≤ d) :
    max 0 (min R (d - a) - max 0 (c - a)) =
      max c (min (a + R) d) - max c (min a d) := by
  simp only [min_def, max_def]
  split_ifs <;> linarith

/-! ### The loop invariant of `balance_weight`'s item loop -/

/-- Invariant of `balanceLoop`'s state: all pending weights are non-negative,
`items_to_send` carries at most `curr_weight` (exactly `curr_weight` minus
what earlier ranks contributed to the current destination), `curr_weight`
stays below `target_weight`, and the state never runs past the end of the
global weight interval `n·T`. -/
def BalInv (n : ℕ) (T : ℚ) (ws toSend : List (WItem α)) (curr : ℚ) (dest : ℤ) : Prop :=
  (∀ it ∈ ws, 0 ≤ it.weight) ∧ (∀ it ∈ toSend, 0 ≤ it.weight) ∧
  itemsWeight toSend ≤ curr ∧ curr < T ∧
  T * ((dest : ℤ) : ℚ) + curr + itemsWeight ws ≤ (n : ℚ) * T

lemma BalInv.curr_nonneg {n : ℕ} {T : ℚ} {ws toSend : List (WItem α)} {curr : ℚ}
    {dest : ℤ} (h : BalInv n T ws toSend curr dest) : 0 ≤ curr :=
  le_trans (itemsWeight_nonneg h.2.1) h.2.2.1

/-- At a saturation event the guard `dest_rank < m_comm.size()` always holds:
the state cannot have run past the end of the global interval. -/
lemma BalInv.split_dest_lt {n : ℕ} {T : ℚ} {itm : WItem α} {rest toSend : List (WItem α)}
    {curr : ℚ} {dest : ℤ} (h : BalInv n T (itm :: rest) toSend curr dest)
    (hT : 0 < T) (hsp : T ≤ curr + itm.weight) : dest < (n : ℤ) := by
  obtain ⟨hws, _, _, _, hb⟩ := h
  rw [itemsWeight_cons] at hb
  have hRnn : 0 ≤ itemsWeight rest :=
    itemsWeight_nonneg (fun it hit => hws it (by simp [hit]))
  have h1 : T * ((dest : ℤ) : ℚ) ≤ (n : ℚ) * T - T := by linarith
  have h2 : ((dest : ℤ) : ℚ) ≤ (n : ℚ) - 1 := by
    have := (mul_le_mul_left hT).mp (by linarith [h1] : T * ((dest : ℤ) : ℚ) ≤ T * ((n : ℚ) - 1))
    exact this
  have : ((dest : ℤ) : ℚ) < (n : ℚ) := by linarith
  exact_mod_cast this

/-! ### Termination of the item loop under `loop_fuel` -/

lemma balanceLoop_isSome (n : ℕ) (T : ℚ) (hT : 0 < T) :
    ∀ (fuel : ℕ) (ws : List (WItem α)) (curr : ℚ) (dest : ℤ)
      (toSend : List (WItem α)) (sends : List (ℤ × List (WItem α))),
      (∀ it ∈ ws, 0 ≤ it.weight) → 0 ≤ curr →
      ws.length + 2 * (⌊(curr + itemsWeight ws) / T⌋).toNat < fuel →
      (balanceLoop n T fuel ws curr dest toSend sends).isSome := by
  intro fuel
  induction fuel with
  | zero => intro ws curr dest toSend sends _ _ hf; omega
  | succ f ih =>
    intro ws curr dest toSend sends hw hc hf
    match ws with
    | [] => simp [balanceLoop]
    | itm :: rest =>
      have hw_itm : 0 ≤ itm.weight := hw itm (by simp)
      have hw_rest : ∀ it ∈ rest, 0 ≤ it.weight := fun it h => hw it (by simp [h])
      have hRnn : 0 ≤ itemsWeight rest := itemsWeight_nonneg hw_rest
      rw [itemsWeight_cons] at hf
      simp only [List.length_cons] at hf
      simp only [balanceLoop]
      by_cases hsp : T ≤ curr + itm.weight
      · rw [if_pos hsp]
        have hS : T ≤ curr + (itm.weight + itemsWeight rest) := by linarith
        have hfl1 : (1 : ℤ) ≤ ⌊(curr + (itm.weight + itemsWeight rest)) / T⌋ := by
          rw [Int.le_floor]
          push_cast
          exact (one_le_div hT).mpr hS
        by_cases hhi : T ≤ curr + itm.weight - T
        · rw [if_pos hhi]
          apply ih
          · intro it h
            rcases List.mem_append.mp h with h' | h'
            · exact hw_rest it h'
            · simp at h'
              rw [h']
              simp only
              linarith
          · exact le_refl 0
          · have hS' : (0 : ℚ) + itemsWeight (rest ++ [⟨itm.id, curr + itm.weight - T⟩]) =
                (curr + (itm.weight + itemsWeight rest)) - T := by
              rw [itemsWeight_append, itemsWeight_cons, itemsWeight_nil]
              simp only
              ring
            rw [hS']
            have hdiv : ((curr + (itm.weight + itemsWeight rest)) - T) / T =
                (curr + (itm.weight + itemsWeight rest)) / T - 1 := by
              rw [sub_div, div_self hT.ne']
            rw [hdiv, Int.floor_sub_one]
            have hlen : (rest ++ [(⟨itm.id, curr + itm.weight - T⟩ : WItem α)]).length =
                rest.length + 1 := by simp
            rw [hlen]
            omega
        · rw [if_neg hhi]
          apply ih
          · exact hw_rest
          · linarith
          · have hS' : (curr + itm.weight - T) + itemsWeight rest =
                (curr + (itm.weight + itemsWeight rest)) - T := by ring
            rw [hS']
            have hdiv : ((curr + (itm.weight + itemsWeight rest)) - T) / T =
                (curr + (itm.weight + itemsWeight rest)) / T - 1 := by
              rw [sub_div, div_self hT.ne']
            rw [hdiv, Int.floor_sub_one]
            omega
      · rw [if_neg hsp]
        apply ih
        · exact hw_rest
        · linarith
        · have hS' : (curr + itm.weight) + itemsWeight rest =
              curr + (itm.weight + itemsWeight rest) := by ring
          rw [hS']
          omega

lemma itemsWeight_snoc (l : List (WItem α)) (it : WItem α) :
    itemsWeight (l ++ [it]) = itemsWeight l + it.weight := by
  rw [itemsWeight_append, itemsWeight_cons, itemsWeight_nil]
  ring

/-- The flush step alone realises the pending `items_to_send` at the current
destination (or drops them precisely when they weigh nothing or the guard
fails with `k` out of range). -/
lemma balanceFlush_sentTo_base (n : ℕ) (curr : ℚ) (dest : ℤ)
    (toSend : List (WItem α)) (sends : List (ℤ × List (WItem α)))
    (k : ℤ) (hk : k < (n : ℤ)) :
    sentTo (balanceFlush n (sends, toSend, curr, dest)) k =
      sentTo sends k + (if dest = k then itemsWeight toSend else 0) := by
  unfold balanceFlush
  by_cases hcond : 0 < toSend.length ∧ dest < (n : ℤ)
  · rw [if_pos hcond, sentTo_snoc]
  · rw [if_neg hcond]
    by_cases hdk : dest = k
    · subst hdk
      rw [if_pos rfl]
      push_neg at hcond
      have hlen : toSend.length = 0 := by omega
      have : toSend = [] := List.length_eq_zero.mp hlen
      rw [this, itemsWeight_nil]
      ring
    · rw [if_neg hdk]
      ring

set_option maxHeartbeats 1000000 in
/-- The delivery lemma for `balance_weight`'s item loop: from any state
satisfying the invariant, the completed loop (with flush) delivers to every
in-range destination `k` exactly the already-recorded weight, plus the
pending `items_to_send` when `k` is the current destination, plus the
overlap of the remaining stream with `k`'s window. -/
lemma balanceLoop_sentTo (n : ℕ) (T : ℚ) (hT : 0 < T) :
    ∀ (fuel : ℕ) (ws : List (WItem α)) (curr : ℚ) (dest : ℤ)
      (toSend : List (WItem α)) (sends : List (ℤ × List (WItem α))) st,
      BalInv n T ws toSend curr dest →
      balanceLoop n T fuel ws curr dest toSend sends = some st →
      ∀ k : ℤ, k < (n : ℤ) →
        sentTo (balanceFlush n st) k =
          sentTo sends k + (if dest = k then itemsWeight toSend else 0) +
            ovl T curr dest k (itemsWeight ws) := by
  intro fuel
  induction fuel with
  | zero =>
    intro ws curr dest toSend sends st hinv heq k hk
    match ws with
    | [] =>
      simp only [balanceLoop, Option.some.injEq] at heq
      subst heq
      rw [itemsWeight_nil, ovl_zero, add_zero]
      exact balanceFlush_sentTo_base n curr dest toSend sends k hk
    | itm :: rest => simp [balanceLoop] at heq
  | succ f ih =>
    intro ws curr dest toSend sends st hinv heq k hk
    match ws with
    | [] =>
      simp only [balanceLoop, Option.some.injEq] at heq
      subst heq
      rw [itemsWeight_nil, ovl_zero, add_zero]
      exact balanceFlush_sentTo_base n curr dest toSend sends k hk
    | itm :: rest =>
      obtain ⟨hws, htsw, hts, hcT, hb⟩ := hinv
      have hw_itm : 0 ≤ itm.weight := hws itm (by simp)
      have hw_rest : ∀ it ∈ rest, 0 ≤ it.weight := fun it h => hws it (by simp [h])
      have hRnn : 0 ≤ itemsWeight rest := itemsWeight_nonneg hw_rest
      have hcurr0 : 0 ≤ curr := le_trans (itemsWeight_nonneg htsw) hts
      rw [itemsWeight_cons] at hb
      simp only [balanceLoop] at heq
      by_cases hsp : T ≤ curr + itm.weight
      · rw [if_pos hsp] at heq
        have hdlt : dest < (n : ℤ) :=
          BalInv.split_dest_lt ⟨hws, htsw, hts, hcT, by rw [itemsWeight_cons]; exact hb⟩ hT hsp
        rw [if_pos hdlt] at heq
        by_cases hhi : T ≤ curr + itm.weight - T
        · rw [if_pos hhi] at heq
          have hrem0 : (0 : ℚ) ≤ curr + itm.weight - T := by linarith
          have hinv' : BalInv n T (rest ++ [⟨itm.id, curr + itm.weight - T⟩]) [] 0 (dest + 1) := by
            refine ⟨?_, by simp, by rw [itemsWeight_nil], hT, ?_⟩
            · intro it h
              rcases List.mem_append.mp h with h' | h'
              · exact hw_rest it h'
              · simp at h'
                rw [h']
                exact hrem0
            · rw [itemsWeight_snoc]
              have hwproj : (⟨itm.id, curr + itm.weight - T⟩ : WItem α).weight
                  = curr + itm.weight - T := rfl
              rw [hwproj]
              push_cast
              linarith
          have hih := ih _ _ _ _ _ _ hinv' heq k hk
          rw [hih, itemsWeight_cons, itemsWeight_snoc, sentTo_snoc, itemsWeight_snoc,
            itemsWeight_nil,
            ovl_step_split_hi T curr itm.weight (itemsWeight rest) dest k hcurr0 hw_itm
              hRnn hcT hT hhi]
          by_cases h1 : dest = k <;> by_cases h2 : dest + 1 = k
          · exfalso; omega
          · simp only [if_pos h1, if_neg h2]; ring
          · simp only [if_neg h1, if_pos h2]; ring
          · simp only [if_neg h1, if_neg h2]; ring
        · rw [if_neg hhi] at heq
          have hrem0 : (0 : ℚ) ≤ curr + itm.weight - T := by linarith
          have hremT : curr + itm.weight - T < T := by linarith
          have htsval : itemsWeight (if curr + itm.weight - T ≠ 0 then
              [(⟨itm.id, curr + itm.weight - T⟩ : WItem α)] else []) = curr + itm.weight - T := by
            by_cases hz : curr + itm.weight - T = 0
            · rw [if_neg (by simpa using hz), itemsWeight_nil, hz]
            · rw [if_pos hz, itemsWeight_cons, itemsWeight_nil]
              ring
          have hinv' : BalInv n T rest
              (if curr + itm.weight - T ≠ 0 then
                [(⟨itm.id, curr + itm.weight - T⟩ : WItem α)] else [])
              (curr + itm.weight - T) (dest + 1) := by
            refine ⟨hw_rest, ?_, le_of_eq htsval, hremT, ?_⟩
            · intro it h
              by_cases hz : curr + itm.weight - T = 0
              · rw [if_neg (by simpa using hz)] at h
                simp at h
              · rw [if_pos hz] at h
                simp at h
                rw [h]
                exact hrem0
            · push_cast
              linarith
          have hih := ih _ _ _ _ _ _ hinv' heq k hk
          rw [hih, htsval, itemsWeight_cons, sentTo_snoc, itemsWeight_snoc,
            ovl_step_split_lo T curr itm.weight (itemsWeight rest) dest k hcurr0 hw_itm
              hRnn hcT hsp hremT]
          have hwts : itm.weight - (curr + itm.weight - T) = T - curr := by ring
          simp only [hwts]
          by_cases h1 : dest = k <;> by_cases h2 : dest + 1 = k
          · exfalso; omega
          · simp only [if_pos h1, if_neg h2]; ring
          · simp only [if_neg h1, if_pos h2]; ring
          · simp only [if_neg h1, if_neg h2]; ring
      · rw [if_neg hsp] at heq
        push_neg at hsp
        have hinv' : BalInv n T rest (toSend ++ [itm]) (curr + itm.weight) dest := by
          refine ⟨hw_rest, ?_, ?_, hsp, by linarith⟩
          · intro it h
            rcases List.mem_append.mp h with h' | h'
            · exact htsw it h'
            · simp at h'
              rw [h']
              exact hw_itm
          · rw [itemsWeight_snoc]
            linarith
        have hih := ih _ _ _ _ _ _ hinv' heq k hk
        rw [hih, itemsWeight_snoc, itemsWeight_cons,
          ovl_step_keep T curr itm.weight (itemsWeight rest) dest k hcurr0 hw_itm hRnn hsp]
        by_cases h1 : dest = k
        · simp only [if_pos h1]; ring
        · simp only [if_neg h1]; ring

/-! ### Invariant preservation, id-weight conservation, destination shape -/

lemma BalInv.step_keep {n : ℕ} {T : ℚ} {itm : WItem α} {rest toSend : List (WItem α)}
    {curr : ℚ} {dest : ℤ} (h : BalInv n T (itm :: rest) toSend curr dest)
    (hsp : ¬ T ≤ curr + itm.weight) :
    BalInv n T rest (toSend ++ [itm]) (curr + itm.weight) dest := by
  obtain ⟨hws, htsw, hts, hcT, hb⟩ := h
  rw [itemsWeight_cons] at hb
  have hw_itm : 0 ≤ itm.weight := hws itm (by simp)
  refine ⟨fun it h' => hws it (by simp [h']), ?_, ?_, by linarith [not_le.mp hsp], by linarith⟩
  · intro it h'
    rcases List.mem_append.mp h' with h'' | h''
    · exact htsw it h''
    · simp at h''
      rw [h'']
      exact hw_itm
  · rw [itemsWeight_snoc]
    linarith

lemma BalInv.step_split_lo {n : ℕ} {T : ℚ} {itm : WItem α} {rest toSend : List (WItem α)}
    {curr : ℚ} {dest : ℤ} (h : BalInv n T (itm :: rest) toSend curr dest)
    (hT : 0 < T) (hsp : T ≤ curr + itm.weight) (hhi : ¬ T ≤ curr + itm.weight - T) :
    BalInv n T rest
      (if curr + itm.weight - T ≠ 0 then [(⟨itm.id, curr + itm.weight - T⟩ : WItem α)] else [])
      (curr + itm.weight - T) (dest + 1) := by
  obtain ⟨hws, htsw, hts, hcT, hb⟩ := h
  rw [itemsWeight_cons] at hb
  have hrem0 : (0 : ℚ) ≤ curr + itm.weight - T := by linarith
  have htsval : itemsWeight (if curr + itm.weight - T ≠ 0 then
      [(⟨itm.id, curr + itm.weight - T⟩ : WItem α)] else []) = curr + itm.weight - T := by
    by_cases hz : curr + itm.weight - T = 0
    · rw [if_neg (by simpa using hz), itemsWeight_nil, hz]
    · rw [if_pos hz, itemsWeight_cons, itemsWeight_nil]
      ring
  refine ⟨fun it h' => hws it (by simp [h']), ?_, le_of_eq htsval,
    by linarith [not_le.mp hhi], ?_⟩
  · intro it h'
    by_cases hz : curr + itm.weight - T = 0
    · rw [if_neg (by simpa using hz)] at h'
      simp at h'
    · rw [if_pos hz] at h'
      simp at h'
      rw [h']
      exact hrem0
  · push_cast
    linarith

lemma BalInv.step_split_hi {n : ℕ} {T : ℚ} {itm : WItem α} {rest toSend : List (WItem α)}
    {curr : ℚ} {dest : ℤ} (h : BalInv n T (itm :: rest) toSend curr dest)
    (hT : 0 < T) (hsp : T ≤ curr + itm.weight) (hhi : T ≤ curr + itm.weight - T) :
    BalInv n T (rest ++ [⟨itm.id, curr + itm.weight - T⟩]) [] 0 (dest + 1) := by
  obtain ⟨hws, htsw, hts, hcT, hb⟩ := h
  rw [itemsWeight_cons] at hb
  have hrem0 : (0 : ℚ) ≤ curr + itm.weight - T := by linarith
  refine ⟨?_, by simp, by rw [itemsWeight_nil], hT, ?_⟩
  · intro it h'
    rcases List.mem_append.mp h' with h'' | h''
    · exact hws it (by simp [h''])
    · simp at h''
      rw [h'']
      exact hrem0
  · rw [itemsWeight_snoc]
    have hwproj : (⟨itm.id, curr + itm.weight - T⟩ : WItem α).weight
        = curr + itm.weight - T := rfl
    rw [hwproj]
    push_cast
    linarith

lemma idWeight_snoc_mk [DecidableEq α] (l : List (WItem α)) (i : α) (w : ℚ) (x : α) :
    idWeight (l ++ [⟨i, w⟩]) x = idWeight l x + (if i = x then w else 0) := by
  rw [idWeight_append, idWeight_single]

/-- The flush either records `items_to_send` or drops a zero-weight batch. -/
lemma balanceFlush_idWeight_base [DecidableEq α] (n : ℕ) (T : ℚ) (hT : 0 < T)
    (curr : ℚ) (dest : ℤ) (toSend : List (WItem α)) (sends : List (ℤ × List (WItem α)))
    (hinv : BalInv n T [] toSend curr dest) (x : α) :
    idWeight (allSentItems (balanceFlush n (sends, toSend, curr, dest))) x =
      idWeight (allSentItems sends) x + idWeight toSend x := by
  unfold balanceFlush
  by_cases hcond : 0 < toSend.length ∧ dest < (n : ℤ)
  · rw [if_pos hcond, allSentItems_snoc, idWeight_append]
  · rw [if_neg hcond]
    push_neg at hcond
    by_cases hlen : 0 < toSend.length
    · have hdge : (n : ℤ) ≤ dest := hcond hlen
      obtain ⟨_, htsw, hts, hcT, hb⟩ := hinv
      have hb' : T * ((dest : ℤ) : ℚ) + curr ≤ (n : ℚ) * T := by
        have := hb
        rw [itemsWeight_nil] at this
        linarith
      have hdq : (n : ℚ) ≤ ((dest : ℤ) : ℚ) := by exact_mod_cast hdge
      have hprod : T * (n : ℚ) ≤ T * ((dest : ℤ) : ℚ) :=
        mul_le_mul_of_nonneg_left hdq hT.le
      have hc0 : curr ≤ 0 := by linarith
      have hts0 : itemsWeight toSend = 0 :=
        le_antisymm (by linarith) (itemsWeight_nonneg htsw)
      rw [idWeight_zero_of (itemsWeight_eq_zero htsw hts0) x, add_zero]
    · have : toSend = [] := List.length_eq_zero.mp (by omega)
      rw [this, idWeight_nil, add_zero]

set_option maxHeartbeats 1000000 in
/-- Id-weight conservation through the item loop: for every id, the weight
recorded across all batches (loop and flush) equals what was pending plus
what the stream carried; guard-dropped batches always weigh nothing. -/
lemma balanceLoop_idWeight [DecidableEq α] (n : ℕ) (T : ℚ) (hT : 0 < T) :
    ∀ (fuel : ℕ) (ws : List (WItem α)) (curr : ℚ) (dest : ℤ)
      (toSend : List (WItem α)) (sends : List (ℤ × List (WItem α))) st,
      BalInv n T ws toSend curr dest →
      balanceLoop n T fuel ws curr dest toSend sends = some st →
      ∀ x : α,
        idWeight (allSentItems (balanceFlush n st)) x =
          idWeight (allSentItems sends) x + idWeight toSend x + idWeight ws x := by
  intro fuel
  induction fuel with
  | zero =>
    intro ws curr dest toSend sends st hinv heq x
    match ws with
    | [] =>
      simp only [balanceLoop, Option.some.injEq] at heq
      subst heq
      rw [idWeight_nil, add_zero]
      exact balanceFlush_idWeight_base n T hT curr dest toSend sends hinv x
    | itm :: rest => simp [balanceLoop] at heq
  | succ f ih =>
    intro ws curr dest toSend sends st hinv heq x
    match ws with
    | [] =>
      simp only [balanceLoop, Option.some.injEq] at heq
      subst heq
      rw [idWeight_nil, add_zero]
      exact balanceFlush_idWeight_base n T hT curr dest toSend sends hinv x
    | itm :: rest =>
      simp only [balanceLoop] at heq
      by_cases hsp : T ≤ curr + itm.weight
      · rw [if_pos hsp] at heq
        have hdlt : dest < (n : ℤ) := hinv.split_dest_lt hT hsp
        rw [if_pos hdlt] at heq
        by_cases hhi : T ≤ curr + itm.weight - T
        · rw [if_pos hhi] at heq
          have hih := ih _ _ _ _ _ _ (hinv.step_split_hi hT hsp hhi) heq x
          rw [hih, allSentItems_snoc, idWeight_append, idWeight_append,
            idWeight_append, idWeight_single, idWeight_single, idWeight_nil,
            idWeight_cons]
          by_cases hx : itm.id = x
          · simp only [if_pos hx]; ring
          · simp only [if_neg hx]; ring
        · rw [if_neg hhi] at heq
          have hih := ih _ _ _ _ _ _ (hinv.step_split_lo hT hsp hhi) heq x
          have htsval : idWeight (if curr + itm.weight - T ≠ 0 then
              [(⟨itm.id, curr + itm.weight - T⟩ : WItem α)] else []) x =
              if itm.id = x then curr + itm.weight - T else 0 := by
            by_cases hz : curr + itm.weight - T = 0
            · rw [if_neg (by simpa using hz), idWeight_nil, hz]
              simp
            · rw [if_pos hz, idWeight_single]
          rw [hih, htsval, allSentItems_snoc, idWeight_append, idWeight_append,
            idWeight_single, idWeight_cons]
          by_cases hx : itm.id = x
          · simp only [if_pos hx]; ring
          · simp only [if_neg hx]; ring
      · rw [if_neg hsp] at heq
        have hih := ih _ _ _ _ _ _ (hinv.step_keep hsp) heq x
        rw [hih, idWeight_append, idWeight_cons, idWeight_nil, idWeight_cons]
        ring

/-- The destinations of the batches a loop run records (flush included) form
a consecutive run starting at the state's `dest_rank`. -/
lemma balanceLoop_dests (n : ℕ) (T : ℚ) (hT : 0 < T) :
    ∀ (fuel : ℕ) (ws : List (WItem α)) (curr : ℚ) (dest : ℤ)
      (toSend : List (WItem α)) (sends : List (ℤ × List (WItem α))) st,
      BalInv n T ws toSend curr dest →
      balanceLoop n T fuel ws curr dest toSend sends = some st →
      ∃ m : ℕ, (balanceFlush n st).map Prod.fst =
        sends.map Prod.fst ++ (List.range m).map (fun i : ℕ => dest + (i : ℤ)) := by
  intro fuel
  induction fuel with
  | zero =>
    intro ws curr dest toSend sends st hinv heq
    match ws with
    | [] =>
      simp only [balanceLoop, Option.some.injEq] at heq
      subst heq
      unfold balanceFlush
      by_cases hcond : 0 < toSend.length ∧ dest < (n : ℤ)
      · rw [if_pos hcond]
        exact ⟨1, by simp [List.range_succ]⟩
      · rw [if_neg hcond]
        exact ⟨0, by simp⟩
    | itm :: rest => simp [balanceLoop] at heq
  | succ f ih =>
    intro ws curr dest toSend sends st hinv heq
    match ws with
    | [] =>
      simp only [balanceLoop, Option.some.injEq] at heq
      subst heq
      unfold balanceFlush
      by_cases hcond : 0 < toSend.length ∧ dest < (n : ℤ)
      · rw [if_pos hcond]
        exact ⟨1, by simp [List.range_succ]⟩
      · rw [if_neg hcond]
        exact ⟨0, by simp⟩
    | itm :: rest =>
      simp only [balanceLoop] at heq
      by_cases hsp : T ≤ curr + itm.weight
      · rw [if_pos hsp] at heq
        have hdlt : dest < (n : ℤ) := hinv.split_dest_lt hT hsp
        rw [if_pos hdlt] at heq
        have hrange : ∀ m' : ℕ,
            sends.map Prod.fst ++ [dest] ++
                (List.range m').map (fun i : ℕ => dest + 1 + (i : ℤ)) =
              sends.map Prod.fst ++
                (List.range (m' + 1)).map (fun i : ℕ => dest + (i : ℤ)) := by
          intro m'
          rw [List.range_succ_eq_map, List.map_cons, List.map_map, List.append_assoc]
          congr 1
          rw [List.singleton_append]
          congr 1
          · simp
          · apply List.map_congr_left
            intro i _
            simp [Function.comp]
            ring
        by_cases hhi : T ≤ curr + itm.weight - T
        · rw [if_pos hhi] at heq
          obtain ⟨m', hm'⟩ := ih _ _ _ _ _ _ (hinv.step_split_hi hT hsp hhi) heq
          refine ⟨m' + 1, ?_⟩
          rw [hm']
          simp only [List.map_append]
          rw [← hrange m']
          simp
        · rw [if_neg hhi] at heq
          obtain ⟨m', hm'⟩ := ih _ _ _ _ _ _ (hinv.step_split_lo hT hsp hhi) heq
          refine ⟨m' + 1, ?_⟩
          rw [hm']
          simp only [List.map_append]
          rw [← hrange m']
          simp
      · rw [if_neg hsp] at heq
        exact ih _ _ _ _ _ _ (hinv.step_keep hsp) heq

/-- Every batch the loop (and flush) records goes to a rank in `[0, n)`. -/
lemma balanceLoop_dest_bounds (n : ℕ) (T : ℚ) (hT : 0 < T) :
    ∀ (fuel : ℕ) (ws : List (WItem α)) (curr : ℚ) (dest : ℤ)
      (toSend : List (WItem α)) (sends : List (ℤ × List (WItem α))) st,
      BalInv n T ws toSend curr dest →
      0 ≤ dest →
      (∀ p ∈ sends, 0 ≤ p.1 ∧ p.1 < (n : ℤ)) →
      balanceLoop n T fuel ws curr dest toSend sends = some st →
      ∀ p ∈ balanceFlush n st, 0 ≤ p.1 ∧ p.1 < (n : ℤ) := by
  intro fuel
  induction fuel with
  | zero =>
    intro ws curr dest toSend sends st hinv hd0 hs heq
    match ws with
    | [] =>
      simp only [balanceLoop, Option.some.injEq] at heq
      subst heq
      unfold balanceFlush
      by_cases hcond : 0 < toSend.length ∧ dest < (n : ℤ)
      · rw [if_pos hcond]
        intro p hp
        rcases List.mem_append.mp hp with h' | h'
        · exact hs p h'
        · simp at h'
          rw [h']
          exact ⟨hd0, hcond.2⟩
      · rw [if_neg hcond]
        exact hs
    | itm :: rest => simp [balanceLoop] at heq
  | succ f ih =>
    intro ws curr dest toSend sends st hinv hd0 hs heq
    match ws with
    | [] =>
      simp only [balanceLoop, Option.some.injEq] at heq
      subst heq
      unfold balanceFlush
      by_cases hcond : 0 < toSend.length ∧ dest < (n : ℤ)
      · rw [if_pos hcond]
        intro p hp
        rcases List.mem_append.mp hp with h' | h'
        · exact hs p h'
        · simp at h'
          rw [h']
          exact ⟨hd0, hcond.2⟩
      · rw [if_neg hcond]
        exact hs
    | itm :: rest =>
      simp only [balanceLoop] at heq
      by_cases hsp : T ≤ curr + itm.weight
      · rw [if_pos hsp] at heq
        have hdlt : dest < (n : ℤ) := hinv.split_dest_lt hT hsp
        rw [if_pos hdlt] at heq
        have hs' : ∀ p ∈ sends ++ [(dest, toSend ++ [(⟨itm.id,
            itm.weight - (curr + itm.weight - T)⟩ : WItem α)])], 0 ≤ p.1 ∧ p.1 < (n : ℤ) := by
          intro p hp
          rcases List.mem_append.mp hp with h' | h'
          · exact hs p h'
          · simp at h'
            rw [h']
            exact ⟨hd0, hdlt⟩
        by_cases hhi : T ≤ curr + itm.weight - T
        · rw [if_pos hhi] at heq
          exact ih _ _ _ _ _ _ (hinv.step_split_hi hT hsp hhi) (by omega) hs' heq
        · rw [if_neg hhi] at heq
          exact ih _ _ _ _ _ _ (hinv.step_split_lo hT hsp hhi) (by omega) hs' heq
      · rw [if_neg hsp] at heq
        exact ih _ _ _ _ _ _ (hinv.step_keep hsp) hd0 hs heq

/-! ### Per-rank consequences -/

lemma balance_weight_rank_run (n : ℕ) (T E : ℚ) (hT : 0 < T) (hE : 0 ≤ E)
    (items : List (WItem α)) (hw : ∀ it ∈ items, 0 ≤ it.weight)
    (hbound : E + itemsWeight items ≤ (n : ℚ) * T) :
    ∃ st, balanceLoop n T (loop_fuel T (fmodQ E T) items) items (fmodQ E T)
        (initial_dest_rank E T) [] [] = some st ∧
      balance_weight_rank n T E items = some (balanceFlush n st) ∧
      BalInv n T items [] (fmodQ E T) (initial_dest_rank E T) := by
  have hc0 : 0 ≤ fmodQ E T := fmodQ_nonneg hT
  have hcT : fmodQ E T < T := fmodQ_lt hT
  have hsome := balanceLoop_isSome n T hT (loop_fuel T (fmodQ E T) items) items
      (fmodQ E T) (initial_dest_rank E T) [] [] hw hc0 (by unfold loop_fuel; omega)
  obtain ⟨st, hst⟩ := Option.isSome_iff_exists.mp hsome
  refine ⟨st, hst, ?_, ?_⟩
  · unfold balance_weight_rank
    rw [hst]
    rfl
  · refine ⟨hw, by simp, by rw [itemsWeight_nil]; exact hc0, hcT, ?_⟩
    have hid := fmodQ_add_floor E T
    linarith

lemma balance_weight_rank_sentTo (n : ℕ) (T E : ℚ) (hT : 0 < T) (hE : 0 ≤ E)
    (items : List (WItem α)) (hw : ∀ it ∈ items, 0 ≤ it.weight)
    (hbound : E + itemsWeight items ≤ (n : ℚ) * T) :
    ∃ s, balance_weight_rank n T E items = some s ∧
      ∀ k : ℤ, k < (n : ℤ) →
        sentTo s k =
          max ((k : ℚ) * T) (min (E + itemsWeight items) (((k : ℚ) + 1) * T)) -
            max ((k : ℚ) * T) (min E (((k : ℚ) + 1) * T)) := by
  obtain ⟨st, hst, hrank, hinv⟩ := balance_weight_rank_run n T E hT hE items hw hbound
  refine ⟨balanceFlush n st, hrank, ?_⟩
  intro k hk
  have hA := balanceLoop_sentTo n T hT _ _ _ _ _ _ _ hinv hst k hk
  rw [sentTo_nil, itemsWeight_nil] at hA
  simp only [ite_self, zero_add, add_zero] at hA
  rw [hA]
  have hid := fmodQ_add_floor E T
  unfold ovl
  have h1 : (((k : ℚ) - ((initial_dest_rank E T : ℤ) : ℚ)) + 1) * T - fmodQ E T =
      ((k : ℚ) + 1) * T - E := by
    have : ((k : ℚ) - ((initial_dest_rank E T : ℤ) : ℚ) + 1) * T =
        (k : ℚ) * T + T - T * ((initial_dest_rank E T : ℤ) : ℚ) := by ring
    rw [this]
    linarith
  have h2 : ((k : ℚ) - ((initial_dest_rank E T : ℤ) : ℚ)) * T - fmodQ E T =
      (k : ℚ) * T - E := by
    have : ((k : ℚ) - ((initial_dest_rank E T : ℤ) : ℚ)) * T =
        (k : ℚ) * T - T * ((initial_dest_rank E T : ℤ) : ℚ) := by ring
    rw [this]
    linarith
  rw [h1, h2]
  have h3 : ((k : ℚ) + 1) * T - E = ((k : ℚ) + 1) * T - E := rfl
  have hR : 0 ≤ itemsWeight items := itemsWeight_nonneg hw
  have hcd : (k : ℚ) * T ≤ ((k : ℚ) + 1) * T := by nlinarith
  have := clamp_overlap E (itemsWeight items) ((k : ℚ) * T) (((k : ℚ) + 1) * T) hR hcd
  rw [show ((k : ℚ) + 1) * T - E = (((k : ℚ) + 1) * T) - E from rfl] at this
  rw [show (k : ℚ) * T - E = ((k : ℚ) * T) - E from rfl] at this
  exact this

lemma balance_weight_rank_conserves [DecidableEq α] (n : ℕ) (T E : ℚ) (hT : 0 < T)
    (hE : 0 ≤ E) (items : List (WItem α)) (hw : ∀ it ∈ items, 0 ≤ it.weight)
    (hbound : E + itemsWeight items ≤ (n : ℚ) * T) :
    ∃ s, balance_weight_rank n T E items = some s ∧
      (∀ x : α, idWeight (allSentItems s) x = idWeight items x) ∧
      (∀ p ∈ s, 0 ≤ p.1 ∧ p.1 < (n : ℤ)) := by
  obtain ⟨st, hst, hrank, hinv⟩ := balance_weight_rank_run n T E hT hE items hw hbound
  refine ⟨balanceFlush n st, hrank, ?_, ?_⟩
  · intro x
    have hB := balanceLoop_idWeight n T hT _ _ _ _ _ _ _ hinv hst x
    rw [allSentItems_nil, idWeight_nil] at hB
    rw [hB]
    ring
  · exact balanceLoop_dest_bounds n T hT _ _ _ _ _ _ _ hinv
      (initial_dest_nonneg hT hE) (by simp) hst

lemma balance_weight_rank_dests (n : ℕ) (T E : ℚ) (hT : 0 < T) (hE : 0 ≤ E)
    (items : List (WItem α)) (hw : ∀ it ∈ items, 0 ≤ it.weight)
    (hbound : E + itemsWeight items ≤ (n : ℚ) * T) :
    ∃ s m, balance_weight_rank n T E items = some s ∧
      s.map Prod.fst =
        (List.range m).map (fun i : ℕ => initial_dest_rank E T + (i : ℤ)) := by
  obtain ⟨st, hst, hrank, hinv⟩ := balance_weight_rank_run n T E hT hE items hw hbound
  obtain ⟨m, hm⟩ := balanceLoop_dests n T hT _ _ _ _ _ _ _ hinv hst
  refine ⟨balanceFlush n st, m, hrank, ?_⟩
  rw [hm]
  simp

/-! ### All ranks together -/

lemma rank_sends_all_sentTo (n : ℕ) (T : ℚ) (hT : 0 < T) :
    ∀ (ls : List (List (WItem α))) (E : ℚ),
      (∀ l ∈ ls, ∀ it ∈ l, 0 ≤ it.weight) → 0 ≤ E →
      E + (ls.map itemsWeight).sum ≤ (n : ℚ) * T →
      ∃ ss, rank_sends_all n T ls E = some ss ∧
        ∀ k : ℤ, k < (n : ℤ) →
          sentTo ss k =
            max ((k : ℚ) * T) (min (E + (ls.map itemsWeight).sum) (((k : ℚ) + 1) * T)) -
              max ((k : ℚ) * T) (min E (((k : ℚ) + 1) * T)) := by
  intro ls
  induction ls with
  | nil =>
    intro E hw hE hbound
    refine ⟨[], rfl, fun k hk => ?_⟩
    rw [sentTo_nil]
    simp
  | cons items rest ih =>
    intro E hw hE hbound
    rw [List.map_cons, List.sum_cons] at hbound
    have hL : 0 ≤ itemsWeight items := itemsWeight_nonneg (hw items (by simp))
    have hRest : 0 ≤ (rest.map itemsWeight).sum := by
      apply List.sum_nonneg
      intro q hq
      obtain ⟨l, hl, rfl⟩ := List.mem_map.mp hq
      exact itemsWeight_nonneg (hw l (by simp [hl]))
    obtain ⟨s, hs, hsent⟩ := balance_weight_rank_sentTo n T E hT hE items
      (hw items (by simp)) (by linarith)
    obtain ⟨ss, hss, hsent'⟩ := ih (E + itemsWeight items)
      (fun l hl => hw l (by simp [hl])) (by linarith) (by linarith)
    refine ⟨s ++ ss, ?_, ?_⟩
    · simp only [rank_sends_all]
      rw [hs, hss]
    · intro k hk
      rw [sentTo_append, hsent k hk, hsent' k hk, List.map_cons, List.sum_cons,
        ← add_assoc]
      ring

lemma rank_sends_all_conserves [DecidableEq α] (n : ℕ) (T : ℚ) (hT : 0 < T) :
    ∀ (ls : List (List (WItem α))) (E : ℚ),
      (∀ l ∈ ls, ∀ it ∈ l, 0 ≤ it.weight) → 0 ≤ E →
      E + (ls.map itemsWeight).sum ≤ (n : ℚ) * T →
      ∃ ss, rank_sends_all n T ls E = some ss ∧
        (∀ x : α, idWeight (allSentItems ss) x = idWeight ls.flatten x) ∧
        (∀ p ∈ ss, 0 ≤ p.1 ∧ p.1 < (n : ℤ)) := by
  intro ls
  induction ls with
  | nil =>
    intro E hw hE hbound
    exact ⟨[], rfl, fun x => by rw [allSentItems_nil]; rfl, by simp⟩
  | cons items rest ih =>
    intro E hw hE hbound
    rw [List.map_cons, List.sum_cons] at hbound
    have hL : 0 ≤ itemsWeight items := itemsWeight_nonneg (hw items (by simp))
    have hRest : 0 ≤ (rest.map itemsWeight).sum := by
      apply List.sum_nonneg
      intro q hq
      obtain ⟨l, hl, rfl⟩ := List.mem_map.mp hq
      exact itemsWeight_nonneg (hw l (by simp [hl]))
    obtain ⟨s, hs, hid, hbnd⟩ := balance_weight_rank_conserves n T E hT hE items
      (hw items (by simp)) (by linarith)
    obtain ⟨ss, hss, hid', hbnd'⟩ := ih (E + itemsWeight items)
      (fun l hl => hw l (by simp [hl])) (by linarith) (by linarith)
    refine ⟨s ++ ss, ?_, ?_, ?_⟩
    · simp only [rank_sends_all]
      rw [hs, hss]
    · intro x
      rw [allSentItems_append, idWeight_append, hid x, hid' x, List.flatten_cons,
        idWeight_append]
    · intro p hp
      rcases List.mem_append.mp hp with h' | h'
      · exact hbnd p h'
      · exact hbnd' p h'

/-! ### Regrouping the received batches per rank -/

lemma allSentItems_cons (p : ℤ × List (WItem α)) (rest : List (ℤ × List (WItem α))) :
    allSentItems (p :: rest) = p.2 ++ allSentItems rest := by
  simp [allSentItems]

lemma receivedItems_cons (p : ℤ × List (WItem α)) (rest : List (ℤ × List (WItem α)))
    (k : ℤ) :
    receivedItems (p :: rest) k =
      (if p.1 = k then p.2 else []) ++ receivedItems rest k := by
  by_cases h : p.1 = k <;> simp [receivedItems, List.filter_cons, h]

lemma idWeight_flatten [DecidableEq α] (L : List (List (WItem α))) (x : α) :
    idWeight L.flatten x = (L.map (fun l => idWeight l x)).sum := by
  induction L with
  | nil => simp [idWeight_nil]
  | cons l L ih => simp [List.flatten_cons, idWeight_append, ih]

lemma sum_map_add_q {β : Type} (l : List β) (f g : β → ℚ) :
    (l.map (fun b => f b + g b)).sum = (l.map f).sum + (l.map g).sum := by
  induction l with
  | nil => simp
  | cons b l ih =>
    simp only [List.map_cons, List.sum_cons, ih]
    ring

lemma sum_range_ite_zero (c : ℚ) (d : ℤ) :
    ∀ n : ℕ, (n : ℤ) ≤ d →
      ((List.range n).map (fun k : ℕ => if d = (k : ℤ) then c else 0)).sum = 0 := by
  intro n
  induction n with
  | zero => intro _; simp
  | succ m ih =>
    intro h
    rw [List.range_succ, List.map_append, List.sum_append, ih (by omega)]
    simp only [List.map_cons, List.map_nil, List.sum_cons, List.sum_nil]
    rw [if_neg (by omega : ¬ d = (m : ℤ))]
    simp

lemma sum_range_ite (c : ℚ) (d : ℤ) :
    ∀ n : ℕ, 0 ≤ d → d < (n : ℤ) →
      ((List.range n).map (fun k : ℕ => if d = (k : ℤ) then c else 0)).sum = c := by
  intro n
  induction n with
  | zero => intro h1 h2; exfalso; omega
  | succ m ih =>
    intro h1 h2
    rw [List.range_succ, List.map_append, List.sum_append]
    by_cases hd : d = (m : ℤ)
    · rw [sum_range_ite_zero c d m (by omega)]
      simp only [List.map_cons, List.map_nil, List.sum_cons, List.sum_nil]
      rw [if_pos hd]
      ring
    · rw [ih h1 (by omega)]
      simp only [List.map_cons, List.map_nil, List.sum_cons, List.sum_nil]
      rw [if_neg hd]
      ring

/-- Grouping all sent batches by their (in-range) destination rank loses no
id weight. -/
lemma received_flatten_idWeight [DecidableEq α] (n : ℕ) :
    ∀ (ss : List (ℤ × List (WItem α))),
      (∀ p ∈ ss, 0 ≤ p.1 ∧ p.1 < (n : ℤ)) → ∀ x : α,
      ((List.range n).map (fun k : ℕ => idWeight (receivedItems ss (k : ℤ)) x)).sum =
        idWeight (allSentItems ss) x := by
  intro ss
  induction ss with
  | nil =>
    intro _ x
    simp [receivedItems_nil, idWeight_nil, allSentItems_nil]
  | cons p rest ih =>
    intro hb x
    have hbp := hb p (by simp)
    have hcongr : ((List.range n).map (fun k : ℕ =>
        idWeight (receivedItems (p :: rest) (k : ℤ)) x)).sum =
        ((List.range n).map (fun k : ℕ =>
          (if p.1 = (k : ℤ) then idWeight p.2 x else 0) +
            idWeight (receivedItems rest (k : ℤ)) x)).sum := by
      congr 1
      apply List.map_congr_left
      intro k _
      rw [receivedItems_cons, idWeight_append]
      by_cases h : p.1 = (k : ℤ)
      · rw [if_pos h, if_pos h]
      · rw [if_neg h, if_neg h, idWeight_nil]
    rw [hcongr, sum_map_add_q, sum_range_ite _ _ n hbp.1 hbp.2,
      ih (fun q hq => hb q (by simp [hq])) x, allSentItems_cons, idWeight_append]

/-! ### The balanced outcome -/

lemma prfx_excl_sum_nonneg (inputs : List (List (WItem α)))
    (hw : ∀ l ∈ inputs, ∀ it ∈ l, 0 ≤ it.weight) (r : ℕ) :
    0 ≤ ygm_prfx_sum_excl (local_weights inputs) r := by
  unfold ygm_prfx_sum_excl local_weights
  apply List.sum_nonneg
  intro q hq
  obtain ⟨l, hl, rfl⟩ := List.mem_map.mp (List.mem_of_mem_take hq)
  exact itemsWeight_nonneg (hw l hl)

lemma prfx_excl_add_rank_le (inputs : List (List (WItem α)))
    (hw : ∀ l ∈ inputs, ∀ it ∈ l, 0 ≤ it.weight) (r : ℕ) (hr : r < inputs.length) :
    ygm_prfx_sum_excl (local_weights inputs) r + itemsWeight (inputs.getD r []) ≤
      ygm_sum (local_weights inputs) := by
  unfold ygm_prfx_sum_excl ygm_sum local_weights
  rw [← List.map_take]
  have hsplit : inputs = inputs.take r ++ inputs.drop r := (List.take_append_drop r inputs).symm
  have hdropget : inputs.drop r = inputs[r] :: inputs.drop (r + 1) :=
    List.drop_eq_getElem_cons hr
  have hget : inputs.getD r [] = inputs[r] := List.getD_eq_getElem inputs [] hr
  calc (List.map itemsWeight (inputs.take r)).sum + itemsWeight (inputs.getD r [])
      ≤ (List.map itemsWeight (inputs.take r)).sum + itemsWeight (inputs.getD r []) +
        (List.map itemsWeight (inputs.drop (r + 1))).sum := by
        have : 0 ≤ (List.map itemsWeight (inputs.drop (r + 1))).sum := by
          apply List.sum_nonneg
          intro q hq
          obtain ⟨l, hl, rfl⟩ := List.mem_map.mp hq
          exact itemsWeight_nonneg (hw l (List.mem_of_mem_drop hl))
        linarith
    _ = (List.map itemsWeight inputs).sum := by
        conv_rhs => rw [hsplit]
        rw [List.map_append, List.sum_append, hdropget, hget, List.map_cons,
          List.sum_cons]
        ring

/-- Core outcome of the balancer: it completes and every rank's new local
total is exactly `target_weight = G / nranks` (a helper shared by the
claim-level theorems). -/
lemma balance_weight_totals (inputs : List (List (WItem α)))
    (hne : inputs ≠ [])
    (hw : ∀ l ∈ inputs, ∀ it ∈ l, 0 ≤ it.weight)
    (hG : 0 < ygm_sum (local_weights inputs)) :
    ∃ outs, balance_weight inputs = some outs ∧
      outs.length = inputs.length ∧
      ∀ out ∈ outs, itemsWeight out =
        ygm_sum (local_weights inputs) / (inputs.length : ℚ) := by
  have hn : 0 < inputs.length := List.length_pos.mpr hne
  have hnq : (0 : ℚ) < (inputs.length : ℚ) := by exact_mod_cast hn
  set G := ygm_sum (local_weights inputs) with hGdef
  set T := G / (inputs.length : ℚ) with hTdef
  have hT : 0 < T := div_pos hG hnq
  have hnT : (inputs.length : ℚ) * T = G := by
    rw [hTdef]
    field_simp
  have hsum : (inputs.map itemsWeight).sum = G := rfl
  obtain ⟨ss, hss, hsent⟩ := rank_sends_all_sentTo inputs.length T hT inputs 0 hw
    (le_refl 0) (by rw [zero_add, hsum, ← hnT])
  refine ⟨(List.range inputs.length).map (fun k : ℕ => receivedItems ss (k : ℤ)), ?_, by simp, ?_⟩
  · unfold balance_weight
    rw [← hGdef, ← hTdef, hss]
    rfl
  · intro out hout
    obtain ⟨k, hk, rfl⟩ := List.mem_map.mp hout
    rw [List.mem_range] at hk
    have hkz : (k : ℤ) < (inputs.length : ℤ) := by exact_mod_cast hk
    have heq := hsent (k : ℤ) hkz
    have hiw : itemsWeight (receivedItems ss (k : ℤ)) = sentTo ss (k : ℤ) := rfl
    rw [hiw, heq]
    push_cast
    have hk0 : (0 : ℚ) ≤ (k : ℚ) := by positivity
    have hk1n : (k : ℚ) + 1 ≤ (inputs.length : ℚ) := by
      have : (k : ℕ) + 1 ≤ inputs.length := hk
      exact_mod_cast this
    have hkTpos : 0 ≤ (k : ℚ) * T := mul_nonneg hk0 hT.le
    have hk1T : ((k : ℚ) + 1) * T ≤ (inputs.length : ℚ) * T :=
      mul_le_mul_of_nonneg_right hk1n hT.le
    have hkT_le : (k : ℚ) * T ≤ ((k : ℚ) + 1) * T := by nlinarith
    rw [zero_add, hsum, min_eq_right (by linarith), max_eq_right hkT_le,
      min_eq_left (by linarith), max_eq_left (by linarith)]
    ring

/-! ### Claim-level theorems for the balancer -/

/-- claim C1: for every input with finite non-negative weights and strictly
positive global weight `G`, the balancer completes, every rank ends holding
at least one item, every rank's local total differs from `G / nranks` by
less than `1e-6` (here: exactly `0`), and the collective all-equal check of
`is_balanced` returns `true` — so the release assertions
`m_local_items.size() > 0`, `dif < 1e-6` and `is_balanced(target)` in
`balance_weight` never fire. -/
theorem balance_weight_balances (inputs : List (List (WItem α)))
    (hne : inputs ≠ [])
    (hw : ∀ l ∈ inputs, ∀ it ∈ l, 0 ≤ it.weight)
    (hG : 0 < ygm_sum (local_weights inputs)) :
    ∃ outs, balance_weight inputs = some outs ∧
      outs.length = inputs.length ∧
      (∀ out ∈ outs, 0 < out.length ∧
        |ygm_sum (local_weights inputs) / (inputs.length : ℚ) - itemsWeight out| <
          1 / 1000000) ∧
      ygm_is_same (outs.map itemsWeight)
        (fun a b => decide (|a - b| < 1 / 1000000)) = true := by
  obtain ⟨outs, hbw, hlen, htot⟩ := balance_weight_totals inputs hne hw hG
  have hn : 0 < inputs.length := List.length_pos.mpr hne
  have hnq : (0 : ℚ) < (inputs.length : ℚ) := by exact_mod_cast hn
  have hT : 0 < ygm_sum (local_weights inputs) / (inputs.length : ℚ) := div_pos hG hnq
  refine ⟨outs, hbw, hlen, ?_, ?_⟩
  · intro out hout
    have ht := htot out hout
    constructor
    · by_contra hlen0
      push_neg at hlen0
      have : out = [] := List.length_eq_zero.mp (by omega)
      rw [this, itemsWeight_nil] at ht
      exact absurd ht.symm (ne_of_gt hT)
    · rw [ht, sub_self, abs_zero]
      norm_num
  · have hall : ∀ q ∈ outs.map itemsWeight,
        q = ygm_sum (local_weights inputs) / (inputs.length : ℚ) := by
      intro q hq
      obtain ⟨out, ho, rfl⟩ := List.mem_map.mp hq
      exact htot out ho
    rcases hmap : outs.map itemsWeight with _ | ⟨v, vs⟩
    · rfl
    · rw [hmap] at hall
      show (vs.all (fun b => decide (|v - b| < 1 / 1000000))) = true
      rw [List.all_eq_true]
      intro r hr
      rw [hall v (by simp), hall r (by simp [hr]), sub_self, abs_zero]
      simp only [decide_eq_true_eq]
      norm_num

/-- Witness for C1: two ranks with weights `3` and `1`; after balancing both
ranks hold weight `2` exactly. -/
theorem balance_weight_balances_witness :
    (([[⟨0, 3⟩], [⟨1, 1⟩]] : List (List (WItem ℕ))) ≠ [] ∧
      (∀ l ∈ ([[⟨0, 3⟩], [⟨1, 1⟩]] : List (List (WItem ℕ))), ∀ it ∈ l, 0 ≤ it.weight) ∧
      0 < ygm_sum (local_weights ([[⟨0, 3⟩], [⟨1, 1⟩]] : List (List (WItem ℕ))))) ∧
    (∃ outs, balance_weight ([[⟨0, 3⟩], [⟨1, 1⟩]] : List (List (WItem ℕ))) = some outs ∧
      outs.length = ([[⟨0, 3⟩], [⟨1, 1⟩]] : List (List (WItem ℕ))).length ∧
      (∀ out ∈ outs, 0 < out.length ∧
        |ygm_sum (local_weights ([[⟨0, 3⟩], [⟨1, 1⟩]] : List (List (WItem ℕ)))) /
            (([[⟨0, 3⟩], [⟨1, 1⟩]] : List (List (WItem ℕ))).length : ℚ) - itemsWeight out| <
          1 / 1000000) ∧
      ygm_is_same (outs.map itemsWeight)
        (fun a b => decide (|a - b| < 1 / 1000000)) = true) :=
  ⟨⟨by simp, by norm_num [List.forall_mem_cons],
      by norm_num [ygm_sum, local_weights, itemsWeight]⟩,
    balance_weight_balances [[⟨0, 3⟩], [⟨1, 1⟩]] (by simp)
      (by norm_num [List.forall_mem_cons])
      (by norm_num [ygm_sum, local_weights, itemsWeight])⟩

/-- claim C2: for every id `x`, the fragment weight carried by `x` across all
ranks after balancing equals the total input weight of `x` — exactly, in the
exact-arithmetic model; splitting only duplicates ids, never changes their
aggregate weight. -/
theorem balance_weight_preserves_id_weight [DecidableEq α]
    (inputs : List (List (WItem α)))
    (hne : inputs ≠ [])
    (hw : ∀ l ∈ inputs, ∀ it ∈ l, 0 ≤ it.weight)
    (hG : 0 < ygm_sum (local_weights inputs)) :
    ∃ outs, balance_weight inputs = some outs ∧
      ∀ x : α, idWeight outs.flatten x = idWeight inputs.flatten x := by
  have hn : 0 < inputs.length := List.length_pos.mpr hne
  have hnq : (0 : ℚ) < (inputs.length : ℚ) := by exact_mod_cast hn
  set G := ygm_sum (local_weights inputs) with hGdef
  set T := G / (inputs.length : ℚ) with hTdef
  have hT : 0 < T := div_pos hG hnq
  have hnT : (inputs.length : ℚ) * T = G := by
    rw [hTdef]
    field_simp
  have hsum : (inputs.map itemsWeight).sum = G := rfl
  obtain ⟨ss, hss, hid, hbnd⟩ := rank_sends_all_conserves inputs.length T hT inputs 0 hw
    (le_refl 0) (by rw [zero_add, hsum, ← hnT])
  refine ⟨(List.range inputs.length).map (fun k : ℕ => receivedItems ss (k : ℤ)), ?_, ?_⟩
  · unfold balance_weight
    rw [← hGdef, ← hTdef, hss]
    rfl
  · intro x
    rw [idWeight_flatten, List.map_map]
    have hcomp : ((List.range inputs.length).map
        ((fun l => idWeight l x) ∘ (fun k : ℕ => receivedItems ss (k : ℤ)))) =
        (List.range inputs.length).map
          (fun k : ℕ => idWeight (receivedItems ss (k : ℤ)) x) := rfl
    rw [hcomp, received_flatten_idWeight inputs.length ss hbnd x, hid x]

/-- Witness for C2 on a weight that splits across both ranks: id `0` keeps
total weight `3` and id `1` keeps total weight `1`. -/
theorem balance_weight_preserves_id_weight_witness :
    (([[⟨0, 3⟩, ⟨1, 1⟩], []] : List (List (WItem ℕ))) ≠ [] ∧
      (∀ l ∈ ([[⟨0, 3⟩, ⟨1, 1⟩], []] : List (List (WItem ℕ))), ∀ it ∈ l, 0 ≤ it.weight) ∧
      0 < ygm_sum (local_weights ([[⟨0, 3⟩, ⟨1, 1⟩], []] : List (List (WItem ℕ))))) ∧
    (∃ outs, balance_weight ([[⟨0, 3⟩, ⟨1, 1⟩], []] : List (List (WItem ℕ))) = some outs ∧
      ∀ x : ℕ, idWeight outs.flatten x =
        idWeight ([[⟨0, 3⟩, ⟨1, 1⟩], []] : List (List (WItem ℕ))).flatten x) :=
  ⟨⟨by simp, by norm_num [List.forall_mem_cons],
      by norm_num [ygm_sum, local_weights, itemsWeight]⟩,
    balance_weight_preserves_id_weight [[⟨0, 3⟩, ⟨1, 1⟩], []]
      (by simp) (by norm_num [List.forall_mem_cons])
      (by norm_num [ygm_sum, local_weights, itemsWeight])⟩

/-- Counterexample for claim C3: the claim asserts both that the initial
destination is `⌊P_{r-1} / T⌋` (the total weight of the ranks *before* `r`)
and that the prefix-sum collective is inclusive (`P_r = Σ_{s≤r} L_s`).  On a
two-rank input with all weight `2` on rank `0` (so `T = 1`), the inclusive
value for rank `0` is `2`, and the code's `int dest_rank = prfx / T` on it
yields destination `2`, while `⌊P_{-1} / T⌋ = 0`: the two conjuncts
contradict each other, so the collective feeding the code cannot be the
inclusive one. -/
theorem incl_prfx_contradicts_dest_cex :
    initial_dest_rank
        (ygm_prfx_sum_incl (local_weights ([[⟨0, 2⟩], []] : List (List (WItem ℕ)))) 0)
        (ygm_sum (local_weights ([[⟨0, 2⟩], []] : List (List (WItem ℕ)))) / 2) ≠
      initial_dest_rank (0 : ℚ)
        (ygm_sum (local_weights ([[⟨0, 2⟩], []] : List (List (WItem ℕ)))) / 2) := by
  norm_num [initial_dest_rank, ygm_prfx_sum_incl, ygm_sum, local_weights, itemsWeight]

/-- claim C3 (amended): with the exclusive prefix sum
`P_{r-1} = Σ_{s<r} L_s` — the value the destination computation actually
needs — rank `r`'s initial destination is `⌊P_{r-1} / T⌋`, and the
destinations of its successive sends (flush included) are exactly
consecutive from there, incrementing by one at each saturation of `T`. -/
theorem balance_weight_dest_consecutive (inputs : List (List (WItem α)))
    (hne : inputs ≠ [])
    (hw : ∀ l ∈ inputs, ∀ it ∈ l, 0 ≤ it.weight)
    (hG : 0 < ygm_sum (local_weights inputs))
    (r : ℕ) (hr : r < inputs.length) :
    ∃ s m, balance_weight_rank inputs.length
        (ygm_sum (local_weights inputs) / (inputs.length : ℚ))
        (ygm_prfx_sum_excl (local_weights inputs) r) (inputs.getD r []) = some s ∧
      s.map Prod.fst = (List.range m).map (fun i : ℕ =>
        initial_dest_rank (ygm_prfx_sum_excl (local_weights inputs) r)
          (ygm_sum (local_weights inputs) / (inputs.length : ℚ)) + (i : ℤ)) := by
  have hn : 0 < inputs.length := List.length_pos.mpr hne
  have hnq : (0 : ℚ) < (inputs.length : ℚ) := by exact_mod_cast hn
  set G := ygm_sum (local_weights inputs) with hGdef
  set T := G / (inputs.length : ℚ) with hTdef
  have hT : 0 < T := div_pos hG hnq
  have hnT : (inputs.length : ℚ) * T = G := by
    rw [hTdef]
    field_simp
  have hE := prfx_excl_sum_nonneg inputs hw r
  have hb := prfx_excl_add_rank_le inputs hw r hr
  have hwr : ∀ it ∈ inputs.getD r [], 0 ≤ it.weight := by
    intro it hit
    have hget : inputs.getD r [] = inputs[r] := List.getD_eq_getElem inputs [] hr
    exact hw _ (by rw [hget]; exact List.getElem_mem hr) it hit
  obtain ⟨s, m, hs, hm⟩ := balance_weight_rank_dests inputs.length T
    (ygm_prfx_sum_excl (local_weights inputs) r) hT hE (inputs.getD r []) hwr
    (by rw [hnT]; exact hb)
  exact ⟨s, m, hs, hm⟩

/-- Witness for C3 at the two-rank input with weights `3` and `1` and
`r = 1`: rank `1` starts sending at destination `⌊3 / 2⌋ = 1`. -/
theorem balance_weight_dest_consecutive_witness :
    (([[⟨0, 3⟩], [⟨1, 1⟩]] : List (List (WItem ℕ))) ≠ [] ∧
      (∀ l ∈ ([[⟨0, 3⟩], [⟨1, 1⟩]] : List (List (WItem ℕ))), ∀ it ∈ l, 0 ≤ it.weight) ∧
      0 < ygm_sum (local_weights ([[⟨0, 3⟩], [⟨1, 1⟩]] : List (List (WItem ℕ)))) ∧
      1 < ([[⟨0, 3⟩], [⟨1, 1⟩]] : List (List (WItem ℕ))).length) ∧
    (∃ s m, balance_weight_rank ([[⟨0, 3⟩], [⟨1, 1⟩]] : List (List (WItem ℕ))).length
        (ygm_sum (local_weights ([[⟨0, 3⟩], [⟨1, 1⟩]] : List (List (WItem ℕ)))) /
          (([[⟨0, 3⟩], [⟨1, 1⟩]] : List (List (WItem ℕ))).length : ℚ))
        (ygm_prfx_sum_excl (local_weights ([[⟨0, 3⟩], [⟨1, 1⟩]] : List (List (WItem ℕ)))) 1)
        (([[⟨0, 3⟩], [⟨1, 1⟩]] : List (List (WItem ℕ))).getD 1 []) = some s ∧
      s.map Prod.fst = (List.range m).map (fun i : ℕ =>
        initial_dest_rank
          (ygm_prfx_sum_excl (local_weights ([[⟨0, 3⟩], [⟨1, 1⟩]] : List (List (WItem ℕ)))) 1)
          (ygm_sum (local_weights ([[⟨0, 3⟩], [⟨1, 1⟩]] : List (List (WItem ℕ)))) /
            (([[⟨0, 3⟩], [⟨1, 1⟩]] : List (List (WItem ℕ))).length : ℚ)) + (i : ℤ))) :=
  ⟨⟨by simp, by norm_num [List.forall_mem_cons],
      by norm_num [ygm_sum, local_weights, itemsWeight], by norm_num⟩,
    balance_weight_dest_consecutive [[⟨0, 3⟩], [⟨1, 1⟩]]
      (by simp) (by norm_num [List.forall_mem_cons])
      (by norm_num [ygm_sum, local_weights, itemsWeight]) 1 (by norm_num)⟩

/-- Counterexample for claim C4: a fragment whose computed destination rank
exceeds `nranks - 1` is *not* absorbed into rank `nranks - 1` — the guard
`dest_rank < m_comm.size()` silently drops it.  With one rank and items
`(0, 1), (1, 0)`, the flush for the trailing zero-weight fragment of id `1`
targets destination `1 > nranks - 1 = 0` and is dropped: no rank's output
contains id `1`. -/
theorem overflow_fragment_dropped_cex :
    balance_weight ([[⟨0, 1⟩, ⟨1, 0⟩]] : List (List (WItem ℕ))) = some [[⟨0, 1⟩]] ∧
      ∀ out ∈ [[(⟨0, 1⟩ : WItem ℕ)]], ∀ it ∈ out, it.id ≠ 1 := by
  constructor
  · norm_num [balance_weight, rank_sends_all, balance_weight_rank, balanceLoop,
      balanceFlush, loop_fuel, fmodQ, initial_dest_rank, itemsWeight, local_weights,
      ygm_sum, receivedItems, List.filter, List.range_succ]
  · norm_num [List.forall_mem_cons]

/-- claim C4 (amended): fragments whose computed destination rank would
exceed `nranks - 1` are dropped rather than sent anywhere, but under the
stated preconditions such fragments always carry zero total weight, so no
weight is discarded: the per-rank totals of the balanced output sum exactly
to the global input weight `G`. -/
theorem balance_weight_no_weight_discarded (inputs : List (List (WItem α)))
    (hne : inputs ≠ [])
    (hw : ∀ l ∈ inputs, ∀ it ∈ l, 0 ≤ it.weight)
    (hG : 0 < ygm_sum (local_weights inputs)) :
    ∃ outs, balance_weight inputs = some outs ∧
      (outs.map itemsWeight).sum = ygm_sum (local_weights inputs) := by
  obtain ⟨outs, hbw, hlen, htot⟩ := balance_weight_totals inputs hne hw hG
  have hn : 0 < inputs.length := List.length_pos.mpr hne
  have hnq : ((inputs.length : ℚ)) ≠ 0 := by
    have : (0 : ℚ) < (inputs.length : ℚ) := by exact_mod_cast hn
    exact this.ne'
  refine ⟨outs, hbw, ?_⟩
  have hrep : outs.map itemsWeight =
      List.replicate inputs.length
        (ygm_sum (local_weights inputs) / (inputs.length : ℚ)) := by
    apply List.eq_replicate_iff.mpr
    refine ⟨by simp [hlen], ?_⟩
    intro b hb
    obtain ⟨out, ho, rfl⟩ := List.mem_map.mp hb
    exact htot out ho
  rw [hrep, List.sum_replicate, nsmul_eq_mul]
  field_simp

/-- Witness for C4 at the two-rank input with weights `1` and `1`:
the output totals sum back to `2`. -/
theorem balance_weight_no_weight_discarded_witness :
    (([[⟨2, 1⟩], [⟨3, 1⟩]] : List (List (WItem ℕ))) ≠ [] ∧
      (∀ l ∈ ([[⟨2, 1⟩], [⟨3, 1⟩]] : List (List (WItem ℕ))), ∀ it ∈ l, 0 ≤ it.weight) ∧
      0 < ygm_sum (local_weights ([[⟨2, 1⟩], [⟨3, 1⟩]] : List (List (WItem ℕ))))) ∧
    (∃ outs, balance_weight ([[⟨2, 1⟩], [⟨3, 1⟩]] : List (List (WItem ℕ))) = some outs ∧
      (outs.map itemsWeight).sum =
        ygm_sum (local_weights ([[⟨2, 1⟩], [⟨3, 1⟩]] : List (List (WItem ℕ))))) :=
  ⟨⟨by simp, by norm_num [List.forall_mem_cons],
      by norm_num [ygm_sum, local_weights, itemsWeight]⟩,
    balance_weight_no_weight_discarded [[⟨2, 1⟩], [⟨3, 1⟩]]
      (by simp) (by norm_num [List.forall_mem_cons])
      (by norm_num [ygm_sum, local_weights, itemsWeight])⟩

end YgmSpec
